import Mathlib

/-!
Verification of HelpUDoc (paper2slides pipeline and agent runner).

Shallow embedding of the Python source under `src/`:
* `src/agent/paper2slides/core/state.py` — stages, `detect_start_stage`
* `src/agent/paper2slides/core/pipeline.py` — `run_pipeline`
* `src/agent/paper2slides/utils/slide_assets.py` — bbox clamping, layout
  normalization, JSON extraction/repair, bbox refinement
* `src/agent/paper2slides/utils/pptx_builder.py` — `calculate_font_size`
* `src/agent/helpudoc_agent/paper2slides_runner.py` — cache key, eviction

Machine integers are modelled as `Nat`/`Int`; Python floats that carry exact
halves or exact rationals are modelled as `ℚ`; fallible code returns `Option`.
-/

namespace HelpUDoc

/-! ## Stages and `detect_start_stage` (`core/state.py`) -/

/-- The pipeline stages, `STAGES = ["rag", "summary", "plan", "generate"]`. -/
inductive Stage where
  | rag
  | summary
  | plan
  | generate
deriving DecidableEq, Repr, Fintype

/-- `STAGES` in order. -/
def STAGES : List Stage := [.rag, .summary, .plan, .generate]

/-- Index of a stage in `STAGES` (`STAGES.index(stage)` in the source). -/
def Stage.idx : Stage → Nat
  | .rag => 0
  | .summary => 1
  | .plan => 2
  | .generate => 3

/-- The string name of a stage, as used in the state dict. -/
def Stage.name : Stage → String
  | .rag => "rag"
  | .summary => "summary"
  | .plan => "plan"
  | .generate => "generate"

/-- `detect_start_stage` from `core/state.py`: checkpoint existence is
abstracted by three booleans (`get_rag_checkpoint(...).exists()` etc.). -/
def detect_start_stage (hasRag hasSummary hasPlan : Bool) : Stage :=
  if ¬hasRag then .rag
  else if ¬hasSummary then .summary
  else if ¬hasPlan then .plan
  else .generate

/-! ## `run_pipeline` (`core/pipeline.py`)

State is the JSON dict persisted by `save_state`: a status string per stage,
an optional `error` entry and an optional `session_id` entry.  Stage bodies
(`run_rag_stage`, ...) either return or raise; we pass their outcome in as a
function from stages to `Except String Unit` (the `String` is `str(e)`).
Cancellation (`session_manager.is_cancelled(session_id)`) is likewise passed
in as a boolean per stage. -/

structure PipeState where
  stages : Stage → String
  error : Option String
  sessionId : Option String

/-- `create_state`: all stages `"pending"`, no `error`, no `session_id`
(`config`/timestamps carry no stage information and are omitted). -/
def create_state : PipeState :=
  { stages := fun _ => "pending", error := none, sessionId := none }

/-- Update one stage's status in a state. -/
def setStage (st : PipeState) (s : Stage) (v : String) : PipeState :=
  { st with stages := fun t => if t = s then v else st.stages t }

/-- The reset loop of `run_pipeline` on an existing state: statuses of
`from_stage` and all later stages are set to `"pending"`; `session_id` is
stored when one is provided. -/
def resetFromStage (st : PipeState) (fromStage : Stage) (sessionId : Option String) :
    PipeState :=
  { stages := fun t => if fromStage.idx ≤ t.idx then "pending" else st.stages t
    error := st.error
    sessionId := match sessionId with
      | some sid => some sid
      | none => st.sessionId }

/-- Outcome of the body of one stage: normal return or a raised exception
with message `str(e)`. -/
inductive StageOutcome where
  | ok
  | raised (msg : String)
deriving DecidableEq

/-- Result of a `run_pipeline` call:
`final` — the state after the call; `saved` — every state passed to
`save_state`, in order; `executed` — stages whose body was entered;
`raised` — the message of an exception propagating out of the call. -/
structure RunResult where
  final : PipeState
  saved : List PipeState
  executed : List Stage
  raised : Option String

/-- The stage loop of `run_pipeline`, over the remaining stages in order. -/
def runStages (results : Stage → StageOutcome) (cancelled : Stage → Bool)
    (st : PipeState) : List Stage → RunResult
  | [] => { final := st, saved := [], executed := [], raised := none }
  | s :: rest =>
    if cancelled s then
      let st1 := { setStage st s "cancelled" with error := some "Cancelled by user" }
      { final := st1, saved := [st1], executed := [],
        raised := some "Pipeline cancelled by user" }
    else
      let st1 := setStage st s "running"
      match results s with
      | .ok =>
        let st2 := setStage st1 s "completed"
        let r := runStages results cancelled st2 rest
        { final := r.final, saved := st1 :: st2 :: r.saved,
          executed := s :: r.executed, raised := r.raised }
      | .raised msg =>
        let st2 := { setStage st1 s "failed" with error := some msg }
        { final := st2, saved := [st1, st2], executed := [s], raised := none }

/-- `run_pipeline` from `core/pipeline.py`.  `initial` is the result of
`load_state`; `sessionId` plays the role of the `session_id` argument;
cancellation is only consulted when a session manager and a session id are
present, so a run without them is the special case `cancelled = fun _ => false`. -/
def run_pipeline (initial : Option PipeState) (fromStage : Stage)
    (sessionId : Option String) (results : Stage → StageOutcome)
    (cancelled : Stage → Bool) : RunResult :=
  let st0 : PipeState :=
    match initial with
    | none => create_state
    | some st => resetFromStage st fromStage sessionId
  let r := runStages results cancelled st0 (STAGES.drop fromStage.idx)
  { r with saved := st0 :: r.saved }

/-! ## A model of decoded JSON / Python values

`json.loads` produces `None`, booleans, ints, floats, strings, lists and
dicts (string keys).  Floats are modelled as exact rationals. -/

/-- A Python float: a finite value (an exact rational, per the declared
float convention) or one of the non-finite values `inf`, `-inf`, `nan`,
which `json.loads` can produce (`Infinity`, `-Infinity`, `NaN`, and
overflowing literals such as `1e400`). -/
inductive PFloat where
  | fin (q : ℚ)
  | inf
  | ninf
  | nan
deriving DecidableEq, Repr

inductive PVal where
  | none
  | bool (b : Bool)
  | int (n : Int)
  | float (x : PFloat)
  | str (s : String)
  | list (xs : List PVal)
  | dict (xs : List (String × PVal))

/-- `mapM` over `Option` with transparent equations. -/
def mapMo {α β : Type} (f : α → Option β) : List α → Option (List β)
  | [] => some []
  | a :: t =>
    match f a, mapMo f t with
    | some b, some ts => some (b :: ts)
    | _, _ => Option.none

/-- `d.get(k)` on a dict, yielding Python `None` when the key is absent. -/
def pyGet (d : List (String × PVal)) (k : String) : PVal :=
  (List.lookup k d).getD .none

/-- `d.get(k, default)` on a dict. -/
def pyGetD (d : List (String × PVal)) (k : String) (v : PVal) : PVal :=
  (List.lookup k d).getD v

/-- `k in d` on a dict. -/
def hasKey (d : List (String × PVal)) (k : String) : Bool :=
  (List.lookup k d).isSome

/-- Python `str.lower()` (ASCII model). -/
def pyLower (s : String) : String :=
  ⟨s.data.map Char.toLower⟩

/-- Python `str.strip()`: drop leading and trailing whitespace. -/
def pyStrip (s : String) : String :=
  ⟨((s.data.dropWhile Char.isWhitespace).reverse.dropWhile Char.isWhitespace).reverse⟩

/-- Python `str(v)`.  Strings render as themselves; the textual form chosen
for the other constructors only matters through being non-empty and not a
layout type name, which holds for Python's renderings as well. -/
def pyStr : PVal → String
  | .none => "None"
  | .bool true => "True"
  | .bool false => "False"
  | .int n => toString n
  | .float (.fin q) => toString q
  | .float .inf => "inf"
  | .float .ninf => "-inf"
  | .float .nan => "nan"
  | .str s => s
  | .list _ => "[...]"
  | .dict _ => "(dict)"

/-- Python truthiness `bool(v)`. -/
def pyTruthy : PVal → Bool
  | .none => false
  | .bool b => b
  | .int n => n != 0
  | .float (.fin q) => q != 0
  | .float _ => true
  | .str s => s != ""
  | .list xs => !xs.isEmpty
  | .dict xs => !xs.isEmpty

/-- Digit run to a natural number. -/
def digitsToNat (ds : List Char) : Nat :=
  ds.foldl (fun a c => a * 10 + (c.toNat - 48)) 0

/-- The smallest magnitude that `float` conversion rounds to infinity:
`2 ^ 1024 - 2 ^ 970`, half-way between the largest finite binary64 double
and the first value past it (written as a literal so it evaluates). -/
def FLOAT_MAX_THRESHOLD : Nat :=
  179769313486231580793728971405303415079934132710037826936173778980444968292764750946649017977587207096330286416692887910946555547851940402630657488671505820681908902000708383676273854845817711531764475730270069855571366959622842914819860834936475292719074168444365510704342711559699508093042880177904174497792

/-- Does the decimal `N * 10^g` overflow the double range? -/
def decOverflow (N : Nat) (g : Int) : Bool :=
  if 0 ≤ g then FLOAT_MAX_THRESHOLD ≤ N * 10 ^ g.toNat
  else FLOAT_MAX_THRESHOLD * 10 ^ (-g).toNat ≤ N

/-- The exact rational value of the decimal `N * 10^g`. -/
def decValue (N : Nat) (g : Int) : ℚ :=
  if 0 ≤ g then ((N * 10 ^ g.toNat : Nat) : ℚ)
  else (N : ℚ) / ((10 ^ (-g).toNat : Nat) : ℚ)

/-- Digits with an optional fractional part: the scaled integer mantissa,
the number of fractional digits, and the remaining characters. -/
def parseMantissa (cs : List Char) : Option (Nat × Nat × List Char) :=
  let intPart := cs.takeWhile Char.isDigit
  let rest1 := cs.dropWhile Char.isDigit
  match rest1 with
  | '.' :: r2 =>
    let frac := r2.takeWhile Char.isDigit
    let rest2 := r2.dropWhile Char.isDigit
    if intPart.isEmpty ∧ frac.isEmpty then Option.none
    else some (digitsToNat intPart * 10 ^ frac.length + digitsToNat frac,
      frac.length, rest2)
  | r2 =>
    if intPart.isEmpty then Option.none
    else some (digitsToNat intPart, 0, r2)

/-- An optional `e`/`E` exponent consuming the rest of the literal. -/
def parseExp (cs : List Char) : Option Int :=
  match cs with
  | [] => some 0
  | e :: r3 =>
    if e = 'e' ∨ e = 'E' then
      let sr : Int × List Char :=
        match r3 with
        | '+' :: r => (1, r)
        | '-' :: r => (-1, r)
        | r => (1, r)
      if sr.2.isEmpty ∨ ¬(sr.2.all Char.isDigit) then Option.none
      else some (sr.1 * (digitsToNat sr.2 : Int))
    else Option.none

/-- Model of `float(s)`: optional sign, then the case-insensitive names
`inf`/`infinity`/`nan` or a decimal literal with optional fraction and
exponent.  Out-of-range literals become infinite without an exception,
exactly as in CPython (`float("1e400")` is `inf`). -/
def parseFloatStr (s : String) : Option PFloat :=
  let cs := (pyStrip s).data
  let sr : Bool × List Char :=
    match cs with
    | '+' :: r => (false, r)
    | '-' :: r => (true, r)
    | r => (false, r)
  let low := sr.2.map Char.toLower
  if low = "inf".data ∨ low = "infinity".data then
    some (if sr.1 then .ninf else .inf)
  else if low = "nan".data then some .nan
  else
    match parseMantissa sr.2 with
    | Option.none => Option.none
    | some (N, fracLen, rest2) =>
      match parseExp rest2 with
      | Option.none => Option.none
      | some ex =>
        let g := ex - (fracLen : Int)
        if decOverflow N g then some (if sr.1 then .ninf else .inf)
        else some (.fin ((if sr.1 then -1 else 1) * decValue N g))

/-- Model of `int(s)` on a stripped string: an optional sign and digits. -/
def parseIntStr (s : String) : Option Int :=
  let cs := s.data
  let (sign, rest) :=
    match cs with
    | '+' :: r => ((1 : Int), r)
    | '-' :: r => ((-1 : Int), r)
    | r => ((1 : Int), r)
  if rest.isEmpty ∨ ¬rest.all Char.isDigit then Option.none
  else some (sign * digitsToNat rest)

/-- Python 3 `round()` to an integer: round half to even. -/
def roundHalfEven (q : ℚ) : Int :=
  let f := q.floor
  let r := q - (f : ℚ)
  if r < 1 / 2 then f
  else if 1 / 2 < r then f + 1
  else if f % 2 = 0 then f else f + 1

/-- Truncation toward zero, the behaviour of Python `int(float)`. -/
def truncQ (q : ℚ) : Int :=
  if q < 0 then -((-q).floor) else q.floor

/-- Outcome of a Python conversion inside a `try` that catches only
`TypeError` and `ValueError`: a value, a caught error, or an uncaught
`OverflowError`. -/
inductive PyRes (α : Type) where
  | ok (a : α)
  | caught
  | raised
deriving DecidableEq, Repr

/-- Left-to-right conversion of a list; the first failure wins, as in a
Python comprehension. -/
def mapPR {α β : Type} (f : α → PyRes β) : List α → PyRes (List β)
  | [] => .ok []
  | a :: t =>
    match f a with
    | .ok b =>
      match mapPR f t with
      | .ok ts => .ok (b :: ts)
      | .caught => .caught
      | .raised => .raised
    | .caught => .caught
    | .raised => .raised

/-- Does `float(n)` on this int overflow the double range (raising an
uncaught `OverflowError`)? -/
def intFloatOverflow (n : Int) : Bool :=
  FLOAT_MAX_THRESHOLD ≤ n.natAbs

/-- Python `float(v)`: `caught` for `TypeError`/`ValueError`, `raised` for
the `OverflowError` on ints beyond the double range. -/
def pyFloat : PVal → PyRes PFloat
  | .int n => if intFloatOverflow n then .raised else .ok (.fin (n : ℚ))
  | .float x => .ok x
  | .bool b => .ok (.fin (if b then 1 else 0))
  | .str s =>
    match parseFloatStr s with
    | some x => .ok x
    | Option.none => .caught
  | _ => .caught

/-- Python `int(v)`: `raised` is the `OverflowError` on infinite floats;
`int(nan)` is a (caught) `ValueError`. -/
def pyInt : PVal → PyRes Int
  | .int n => .ok n
  | .float (.fin q) => .ok (truncQ q)
  | .float .nan => .caught
  | .float _ => .raised
  | .bool b => .ok (if b then 1 else 0)
  | .str s =>
    match parseIntStr (pyStrip s) with
    | some n => .ok n
    | Option.none => .caught
  | _ => .caught

/-- Python `round(f)` to an integer: `raised` is the `OverflowError` on
infinite floats; `round(nan)` is a (caught) `ValueError`. -/
def roundPy : PFloat → PyRes Int
  | .fin q => .ok (roundHalfEven q)
  | .nan => .caught
  | _ => .raised

/-! ## Bboxes and layout normalization (`utils/slide_assets.py`) -/

/-- `IMAGE_ELEMENT_TYPES` from `slide_assets.py`. -/
def IMAGE_ELEMENT_TYPES : List String :=
  ["image", "figure", "diagram", "chart", "photo", "icon", "equation"]

/-- One `int(round(float(v)))` bbox entry. -/
def bboxEntry (v : PVal) : PyRes Int :=
  match pyFloat v with
  | .ok x => roundPy x
  | .caught => .caught
  | .raised => .raised

/-- `_coerce_bbox`: a 4-element list whose entries all convert via
`int(round(float(v)))`.  Outer `Option.none` is an uncaught
`OverflowError`; `some Option.none` is the caught-error `None` return. -/
def coerce_bbox (v : PVal) : Option (Option (List Int)) :=
  match v with
  | .list xs =>
    if xs.length = 4 then
      match mapPR bboxEntry xs with
      | .ok l => some (some l)
      | .caught => some Option.none
      | .raised => Option.none
    else some Option.none
  | _ => some Option.none

/-- `_clamp_bbox`: clamp the four coordinates into `[0,width]`/`[0,height]`,
then swap each axis if reversed.  (The source destructures a 4-list; other
shapes do not reach it.) -/
def clamp_bbox (bbox : List Int) (widthPx heightPx : Int) : List Int :=
  match bbox with
  | [x0, y0, x1, y1] =>
    let x0 := max 0 (min widthPx x0)
    let y0 := max 0 (min heightPx y0)
    let x1 := max 0 (min widthPx x1)
    let y1 := max 0 (min heightPx y1)
    let p := if x1 < x0 then (x1, x0) else (x0, x1)
    let q := if y1 < y0 then (y1, y0) else (y0, y1)
    [p.1, q.1, p.2, q.2]
  | other => other

/-- `_coerce_number`: `float(value)` with `None` passed through.  Outer
`Option.none` is the uncaught `OverflowError` on an out-of-range int. -/
def coerce_number (v : PVal) : Option (Option PFloat) :=
  match v with
  | .none => some Option.none
  | v =>
    match pyFloat v with
    | .ok x => some (some x)
    | .caught => some Option.none
    | .raised => Option.none

/-- `_coerce_int`: `int(value)` with `None` passed through.  Outer
`Option.none` is the uncaught `OverflowError` on an infinite float. -/
def coerce_int (v : PVal) : Option (Option Int) :=
  match v with
  | .none => some Option.none
  | v =>
    match pyInt v with
    | .ok n => some (some n)
    | .caught => some Option.none
    | .raised => Option.none

/-- One rgb channel: `int(channel)`, then the `[0,255]` range check. -/
def rgbEntry (c : PVal) : PyRes Int :=
  match pyInt c with
  | .ok n => if 0 ≤ n ∧ n ≤ 255 then .ok n else .caught
  | .caught => .caught
  | .raised => .raised

/-- `_coerce_rgb`: a 3-element list of in-range `int(channel)` values.
Outer `Option.none` is an uncaught `OverflowError`. -/
def coerce_rgb (v : PVal) : Option (Option (List Int)) :=
  match v with
  | .list xs =>
    if xs.length = 3 then
      match mapPR rgbEntry xs with
      | .ok l => some (some l)
      | .caught => some Option.none
      | .raised => Option.none
    else some Option.none
  | _ => some Option.none

/-- One element emitted by `_normalize_layout` (absent dict keys as
`Option.none`). -/
structure NormElement where
  etype : String
  bbox : List Int
  text : Option String := Option.none
  font_size : Option PFloat := Option.none
  bold : Option Bool := Option.none
  italic : Option Bool := Option.none
  underline : Option Bool := Option.none
  color_rgb : Option (List Int) := Option.none
  align : Option String := Option.none
  cells : Option (List (List String)) := Option.none
  rows : Option Int := Option.none
  cols : Option Int := Option.none
  description : Option String := Option.none
  asset_path : Option String := Option.none

/-- The dict returned by `_normalize_layout`. -/
structure Layout where
  version : String
  canvasWidth : Int
  canvasHeight : Int
  elements : List NormElement

/-- Iterating `str(cell) for cell in row`: lists iterate elements, strings
iterate characters, dicts iterate keys; other values raise `TypeError`
(modelled as `Option.none`). -/
def iterCells : PVal → Option (List String)
  | .list xs => some (xs.map pyStr)
  | .str s => some (s.data.map fun c => ⟨[c]⟩)
  | .dict xs => some (xs.map Prod.fst)
  | _ => Option.none

/-- The `raw_type` computation of `_normalize_layout`, including the two
reclassification steps. -/
def rawTypeOf (e : List (String × PVal)) : String :=
  let t0 := pyStrip (pyLower (pyStr (pyGetD e "type" (.str ""))))
  let t1 := if t0 ∈ ["title", "heading", "header", "footer"] then "text" else t0
  if t1 ∈ ["text", "table"] ∨ t1 ∈ IMAGE_ELEMENT_TYPES then t1
  else if hasKey e "text" then "text"
  else if hasKey e "cells" then "table"
  else "image"

/-- The per-element body of `_normalize_layout`'s loop.
`some Option.none` — element skipped by a `continue`;
`some (some el)` — element appended;
`Option.none` — an uncaught exception: the `TypeError` from a non-iterable
row in `cells`, or an `OverflowError` escaping one of the coercions. -/
def normalizeElement (v : PVal) (widthPx heightPx : Int) :
    Option (Option NormElement) :=
  match v with
  | .dict e =>
    let rawType := rawTypeOf e
    match coerce_bbox (pyGet e "bbox") with
    | Option.none => Option.none
    | some Option.none => some Option.none
    | some (some bbox0) =>
      let bbox := clamp_bbox bbox0 widthPx heightPx
      if rawType = "text" then
        let text := pyStrip (pyStr (pyGetD e "text" (.str "")))
        if text = "" then some Option.none
        else
          match coerce_number (pyGet e "font_size") with
          | Option.none => Option.none
          | some fs =>
            match coerce_rgb (pyGet e "color_rgb") with
            | Option.none => Option.none
            | some color =>
              some (some
                { etype := rawType, bbox := bbox, text := some text
                  font_size := fs
                  bold := if hasKey e "bold" then some (pyTruthy (pyGet e "bold")) else Option.none
                  italic := if hasKey e "italic" then some (pyTruthy (pyGet e "italic")) else Option.none
                  underline := if hasKey e "underline" then some (pyTruthy (pyGet e "underline")) else Option.none
                  color_rgb := color
                  align :=
                    let a := pyStrip (pyLower (pyStr (pyGetD e "align" (.str ""))))
                    if a ∈ ["left", "center", "right", "justify"] then some a else Option.none })
      else if rawType = "table" then
        match pyGet e "cells" with
        | .list rows =>
          match mapMo iterCells rows with
          | Option.none => Option.none
          | some cells =>
            let desc := pyStrip (pyStr (pyGetD e "description" (.str "")))
            some (some
              { etype := rawType, bbox := bbox, cells := some cells
                rows := some (cells.length : Int)
                cols := some ((cells.map List.length).foldr max 0 : Int)
                description := if desc = "" then Option.none else some desc })
        | _ =>
          match coerce_int (pyGet e "rows") with
          | Option.none => Option.none
          | some rowsV =>
            match coerce_int (pyGet e "cols") with
            | Option.none => Option.none
            | some colsV =>
              let desc := pyStrip (pyStr (pyGetD e "description" (.str "")))
              some (some
                { etype := rawType, bbox := bbox
                  rows := rowsV
                  cols := colsV
                  description := if desc = "" then Option.none else some desc })
      else
        let desc := pyStrip (pyStr (pyGetD e "description" (.str "")))
        some (some
          { etype := rawType, bbox := bbox
            description := if desc = "" then Option.none else some desc
            asset_path :=
              match pyGet e "asset_path" with
              | .str s => if pyStrip s = "" then Option.none else some s
              | _ => Option.none })
  | _ => some Option.none

/-- The dict `_normalize_layout` works on (`layout` if it is a dict, else
`{}`). -/
def layoutDict (layout : PVal) : List (String × PVal) :=
  match layout with
  | .dict e => e
  | _ => []

/-- The element list `_normalize_layout` iterates (`layout.get("elements")`
when it is a list, else `[]`). -/
def elementsOf (layout : PVal) : List PVal :=
  match pyGet (layoutDict layout) "elements" with
  | .list xs => xs
  | _ => []

/-- `_normalize_layout`.  `Option.none` models an uncaught exception. -/
def normalize_layout (layout : PVal) (widthPx heightPx : Int) : Option Layout :=
  let d := layoutDict layout
  let elements := elementsOf layout
  match mapMo (fun v => normalizeElement v widthPx heightPx) elements with
  | Option.none => Option.none
  | some processed =>
    some
      { version := pyStr (pyGetD d "version" (.str "1"))
        canvasWidth := widthPx
        canvasHeight := heightPx
        elements := processed.filterMap id }

/-! ## `_refine_bbox` (`utils/slide_assets.py`)

The crop, model call and reply parsing are external; the reply as parsed by
`_load_bbox_payload` is passed in as `refined : Option (List Int)`
(`Option.none` when no usable bbox came back). -/

/-- The decision logic of `SlideAssetExtractor._refine_bbox`.  The float
comparison `area_ratio < 0.15` is the exact rational comparison
`20 * area < 3 * max (w*h) 1`. -/
def refine_bbox (refineMinSize : Int) (bbox : List Int)
    (refined : Option (List Int)) : List Int :=
  match bbox with
  | [x0, y0, x1, y1] =>
    let width := x1 - x0
    let height := y1 - y0
    if width < refineMinSize ∨ height < refineMinSize then bbox
    else
      match refined with
      | Option.none => bbox
      | some r =>
        match clamp_bbox r width height with
        | [rx0, ry0, rx1, ry1] =>
          if rx1 - rx0 < 5 ∨ ry1 - ry0 < 5 then bbox
          else if 20 * ((rx1 - rx0) * (ry1 - ry0)) < 3 * max (width * height) 1 then bbox
          else [x0 + rx0, y0 + ry0, x0 + rx1, y0 + ry1]
        | _ => bbox
  | other => other

/-! ## `PPTXBuilder.calculate_font_size` (`utils/pptx_builder.py`)

The precise path measures text with a font file on disk; the embedding takes
the portable estimation path (`use_precise = False`), which uses the same
line/height accounting; the division by `int(usable_width_pt)` happens on
both paths.  Exact rationals stand for the float point arithmetic. -/

def MIN_FONT_SIZE : Nat := 6

def MAX_FONT_SIZE : Nat := 200

def DEFAULT_DPI : Nat := 96

/-- CJK ranges tested by the estimation loop. -/
def isCJK (c : Char) : Bool :=
  (0x4e00 ≤ c.toNat ∧ c.toNat ≤ 0x9fff) ∨
  (0x3040 ≤ c.toNat ∧ c.toNat ≤ 0x30ff) ∨
  (0xac00 ≤ c.toNat ∧ c.toNat ≤ 0xd7af)

/-- Width of a line in half-points per unit font size:
CJK characters weigh `1.0`, others `0.5`, so `2` resp. `1` half-units. -/
def lineWeight (l : List Char) : Nat :=
  (l.map fun c => if isCJK c then 2 else 1).sum

/-- `text.split("\n")`. -/
def splitLines : List Char → List (List Char)
  | [] => [[]]
  | c :: rest =>
    if c = '\n' then [] :: splitLines rest
    else
      match splitLines rest with
      | h :: t => (c :: h) :: t
      | [] => [[c]]

/-- Lines needed for one line of text at font size `fs` and integral usable
width `w` (in points): empty lines count once; otherwise
`max(1, -(-int(line_width_pt) // int(usable_width_pt)))`, a ceiling
division, with `int(line_width_pt) = lineWeight * fs / 2` rounded down. -/
def lineNeed (fs w : Nat) (l : List Char) : Nat :=
  if l.isEmpty then 1
  else max 1 ((lineWeight l * fs / 2 + w - 1) / w)

/-- `total_required_lines` over all lines of the text. -/
def requiredLines (fs w : Nat) (text : List Char) : Nat :=
  ((splitLines text).map (lineNeed fs w)).sum

/-- Does font size `fs` fit: `total_required_lines * fs ≤ usable_height_pt`
(line height ratio is `1.0`). -/
def fitsSize (w : Nat) (heightPt : ℚ) (text : List Char) (fs : Nat) : Bool :=
  (requiredLines fs w text : ℚ) * (fs : ℚ) ≤ heightPt

/-- The candidate sizes `range(200, 5, -1)`, i.e. `200, 199, …, 6`. -/
def sizeCandidates : List Nat :=
  (List.range (MAX_FONT_SIZE - MIN_FONT_SIZE + 1)).map (fun i => MAX_FONT_SIZE - i)

/-- First candidate that fits (the loop breaks at the first success). -/
def findFit (w : Nat) (heightPt : ℚ) (text : List Char) : List Nat → Option Nat
  | [] => Option.none
  | fs :: rest =>
    if fitsSize w heightPt text fs then some fs else findFit w heightPt text rest

/-- `calculate_font_size`.  `Option.none` models the `ZeroDivisionError`
raised when `int(usable_width_pt) = 0` with a non-empty line present; a
non-4-element bbox (which raises on destructuring) also yields
`Option.none`. -/
def calculate_font_size (bbox : List Int) (text : List Char) (dpi0 : Nat) :
    Option Nat :=
  let dpi := if dpi0 = 0 then DEFAULT_DPI else dpi0
  match bbox with
  | [x0, y0, x1, y1] =>
    let widthPt : ℚ := ((x1 - x0 : Int) : ℚ) * 72 / (dpi : ℚ)
    let heightPt : ℚ := ((y1 - y0 : Int) : ℚ) * 72 / (dpi : ℚ)
    if widthPt ≤ 0 ∨ heightPt ≤ 0 then some MIN_FONT_SIZE
    else
      let w : Nat := widthPt.floor.toNat
      if w = 0 ∧ (splitLines text).any (fun l => ¬l.isEmpty) then Option.none
      else some ((findFit w heightPt text sizeCandidates).getD MIN_FONT_SIZE)
  | _ => Option.none

/-! ## SHA-256 (Python `hashlib.sha256`)

Executable model over byte lists (`Nat` values `< 256`), 32-bit words as
`Nat` with explicit `% 2^32`. -/

/-- Right rotation of a 32-bit word. -/
def rotr (n x : Nat) : Nat :=
  ((x >>> n) ||| (x <<< (32 - n))) % 2 ^ 32

/-- Bitwise complement of a 32-bit word. -/
def not32 (x : Nat) : Nat :=
  x ^^^ 0xffffffff

/-- The SHA-256 round constants. -/
def sha256K : List Nat :=
  [1116352408, 1899447441, 3049323471, 3921009573, 961987163, 1508970993,
  2453635748, 2870763221, 3624381080, 310598401, 607225278, 1426881987,
  1925078388, 2162078206, 2614888103, 3248222580, 3835390401, 4022224774,
  264347078, 604807628, 770255983, 1249150122, 1555081692, 1996064986,
  2554220882, 2821834349, 2952996808, 3210313671, 3336571891, 3584528711,
  113926993, 338241895, 666307205, 773529912, 1294757372, 1396182291,
  1695183700, 1986661051, 2177026350, 2456956037, 2730485921, 2820302411,
  3259730800, 3345764771, 3516065817, 3600352804, 4094571909, 275423344,
  430227734, 506948616, 659060556, 883997877, 958139571, 1322822218,
  1537002063, 1747873779, 1955562222, 2024104815, 2227730452, 2361852424,
  2428436474, 2756734187, 3204031479, 3329325298]

/-- The SHA-256 working state: eight 32-bit words. -/
structure Sha256State where
  a : Nat
  b : Nat
  c : Nat
  d : Nat
  e : Nat
  f : Nat
  g : Nat
  h : Nat

/-- The SHA-256 initial hash value. -/
def sha256init : Sha256State :=
  ⟨0x6a09e667, 0xbb67ae85, 0x3c6ef372, 0xa54ff53a,
   0x510e527f, 0x9b05688c, 0x1f83d9ab, 0x5be0cd19⟩

/-- Message-schedule extension: `acc` holds the words most recent first;
each step prepends `σ1(w[i-2]) + w[i-7] + σ0(w[i-15]) + w[i-16]`. -/
def extendSchedule (acc : List Nat) : Nat → List Nat
  | 0 => acc
  | n + 1 =>
    let s0 :=
      let w := acc.getD 14 0
      (rotr 7 w) ^^^ (rotr 18 w) ^^^ (w >>> 3)
    let s1 :=
      let w := acc.getD 1 0
      (rotr 17 w) ^^^ (rotr 19 w) ^^^ (w >>> 10)
    extendSchedule (((s1 + acc.getD 6 0 + s0 + acc.getD 15 0) % 2 ^ 32) :: acc) n

/-- One SHA-256 round for round constant `k` and schedule word `w`. -/
def sha256Round (st : Sha256State) (kw : Nat × Nat) : Sha256State :=
  let S1 := (rotr 6 st.e) ^^^ (rotr 11 st.e) ^^^ (rotr 25 st.e)
  let ch := (st.e &&& st.f) ^^^ ((not32 st.e) &&& st.g)
  let temp1 := (st.h + S1 + ch + kw.1 + kw.2) % 2 ^ 32
  let S0 := (rotr 2 st.a) ^^^ (rotr 13 st.a) ^^^ (rotr 22 st.a)
  let maj := (st.a &&& st.b) ^^^ (st.a &&& st.c) ^^^ (st.b &&& st.c)
  let temp2 := (S0 + maj) % 2 ^ 32
  ⟨(temp1 + temp2) % 2 ^ 32, st.a, st.b, st.c,
   (st.d + temp1) % 2 ^ 32, st.e, st.f, st.g⟩

/-- Compress one 16-word block into the state (Davies–Meyer feed-forward). -/
def sha256Block (st : Sha256State) (block : List Nat) : Sha256State :=
  let ws := (extendSchedule block.reverse 48).reverse
  let r := (sha256K.zip ws).foldl sha256Round st
  ⟨(st.a + r.a) % 2 ^ 32, (st.b + r.b) % 2 ^ 32, (st.c + r.c) % 2 ^ 32,
   (st.d + r.d) % 2 ^ 32, (st.e + r.e) % 2 ^ 32, (st.f + r.f) % 2 ^ 32,
   (st.g + r.g) % 2 ^ 32, (st.h + r.h) % 2 ^ 32⟩

/-- Process a padded message, sixteen 32-bit words per block. -/
def sha256Blocks (st : Sha256State) : List Nat → Sha256State
  | w0 :: w1 :: w2 :: w3 :: w4 :: w5 :: w6 :: w7 ::
    w8 :: w9 :: w10 :: w11 :: w12 :: w13 :: w14 :: w15 :: rest =>
    sha256Blocks
      (sha256Block st [w0, w1, w2, w3, w4, w5, w6, w7,
                       w8, w9, w10, w11, w12, w13, w14, w15]) rest
  | _ => st

/-- Big-endian words from bytes. -/
def bytesToWords : List Nat → List Nat
  | b0 :: b1 :: b2 :: b3 :: rest =>
    (b0 * 2 ^ 24 + b1 * 2 ^ 16 + b2 * 2 ^ 8 + b3) :: bytesToWords rest
  | _ => []

/-- SHA-256 padding: `0x80`, zeros to 56 mod 64, 8-byte big-endian bit
length. -/
def sha256pad (msg : List Nat) : List Nat :=
  let padZeros := (119 - msg.length % 64) % 64
  msg ++ [0x80] ++ List.replicate padZeros 0 ++
    (List.range 8).map (fun i => (msg.length * 8) >>> ((7 - i) * 8) % 2 ^ 64 % 256)

/-- Big-endian bytes of a 32-bit word. -/
def wordBytes (w : Nat) : List Nat :=
  [w >>> 24 % 256, w >>> 16 % 256, w >>> 8 % 256, w % 256]

/-- The 32-byte SHA-256 digest of a byte list. -/
def sha256 (msg : List Nat) : List Nat :=
  let st := sha256Blocks sha256init (bytesToWords (sha256pad msg))
  wordBytes st.a ++ wordBytes st.b ++ wordBytes st.c ++ wordBytes st.d ++
  wordBytes st.e ++ wordBytes st.f ++ wordBytes st.g ++ wordBytes st.h

/-- Lower-case hex digit. -/
def hexChar (n : Nat) : Char :=
  if n < 10 then Char.ofNat (48 + n) else Char.ofNat (87 + n)

/-- `hexdigest()`: two lower-case hex digits per byte. -/
def toHex (bytes : List Nat) : List Char :=
  bytes.flatMap fun b => [hexChar (b / 16 % 16), hexChar (b % 16)]

/-! ## `_compute_cache_key` (`helpudoc_agent/paper2slides_runner.py`) -/

/-- UTF-8 bytes of one character (`str.encode("utf-8")`). -/
def utf8Char (c : Char) : List Nat :=
  let n := c.toNat
  if n < 0x80 then [n]
  else if n < 0x800 then [0xc0 + n / 64, 0x80 + n % 64]
  else if n < 0x10000 then
    [0xe0 + n / 4096, 0x80 + (n / 64) % 64, 0x80 + n % 64]
  else
    [0xf0 + n / 262144, 0x80 + (n / 4096) % 64, 0x80 + (n / 64) % 64,
     0x80 + n % 64]

/-- UTF-8 bytes of a string. -/
def utf8Encode (s : String) : List Nat :=
  s.data.flatMap utf8Char

/-- Code-point lexicographic comparison (Python `<=` on `str`). -/
def lexLe : List Nat → List Nat → Bool
  | [], _ => true
  | _ :: _, [] => false
  | a :: as, b :: bs =>
    if a < b then true else if b < a then false else lexLe as bs

/-- Python string comparison, used as the sort key order. -/
def strLe (a b : String) : Bool :=
  lexLe (a.data.map Char.toNat) (b.data.map Char.toNat)

/-- The key order of Python `sorted(..., key=lambda item: item[0])` and
`json.dumps(..., sort_keys=True)`: compare first components as Python
strings. -/
def byNameLe {β : Type} (x y : String × β) : Prop := strLe x.1 y.1 = true

instance {β : Type} : DecidableRel (@byNameLe β) :=
  fun x y => instDecidableEqBool (strLe x.1 y.1) true

/-- Minimal JSON string escaping (backslash and double quote; the option
strings at hand contain neither). -/
def jsonEscapeChar (c : Char) : List Char :=
  if c = '\\' then ['\\', '\\']
  else if c = '"' then ['\\', '"']
  else [c]

/-- `json.dumps(options, sort_keys=True)` for a string-valued options dict,
with the default separators `", "` and `": "`. -/
def dumpsSorted (opts : List (String × String)) : List Char :=
  let enc := fun (s : String) => '"' :: s.data.flatMap jsonEscapeChar ++ ['"']
  let items := (List.insertionSort byNameLe opts).map
    fun kv => enc kv.1 ++ [':', ' '] ++ enc kv.2
  '\x7b' :: (items.intersperse [',', ' ']).flatten ++ ['\x7d']

/-- The byte stream fed to the digest by `_compute_cache_key`: for each
(sanitized name, bytes) pair, sorted by name, `name ++ NUL ++ blob`; then
`b"\0options\0"` and the canonical options encoding. -/
def cacheKeyStream (entries : List (String × List Nat))
    (opts : List (String × String)) : List Nat :=
  let normalized := List.insertionSort byNameLe entries
  (normalized.flatMap fun e => utf8Encode e.1 ++ [0] ++ e.2) ++
    ([0] ++ utf8Encode "options" ++ [0]) ++
    (dumpsSorted opts).flatMap utf8Char

/-- `_compute_cache_key`: first 32 hex characters of the SHA-256 digest of
the stream. -/
def compute_cache_key (entries : List (String × List Nat))
    (opts : List (String × String)) : String :=
  ⟨(toHex (sha256 (cacheKeyStream entries opts))).take 32⟩

/-! ## `_evict_old_cache_items` (`helpudoc_agent/paper2slides_runner.py`)

A cache directory entry: its name, its `st_mtime`, and whether some other
process currently holds its `.lock` (in which case the non-blocking
`flock` fails). -/

structure CacheEntry where
  name : String
  mtime : Nat
  locked : Bool
deriving DecidableEq, Repr

/-- Does a directory name start with a dot? -/
def dotName (s : String) : Bool :=
  match s.data with
  | '.' :: _ => true
  | _ => false

/-- The non-dot top-level directories that eviction considers. -/
def evictListed (entries : List CacheEntry) : List CacheEntry :=
  entries.filter fun e => ¬dotName e.name

/-- The mtime order used by eviction (`key=lambda p: p.stat().st_mtime`). -/
def mtimeLe (a b : CacheEntry) : Prop := a.mtime ≤ b.mtime

instance : DecidableRel mtimeLe := fun a b => Nat.decLe a.mtime b.mtime

/-- `to_remove`: when over capacity, the oldest `len - max_items` listed
entries in mtime order (`max_items = 0` models `max_items <= 0`, where
eviction is disabled). -/
def evictCandidates (maxItems : Nat) (entries : List CacheEntry) :
    List CacheEntry :=
  if maxItems = 0 then []
  else
    let es := evictListed entries
    if es.length ≤ maxItems then []
    else (List.insertionSort mtimeLe es).take (es.length - maxItems)

/-- The entries `_evict_old_cache_items` actually deletes: candidates whose
non-blocking lock acquisition succeeds. -/
def evictDeleted (maxItems : Nat) (entries : List CacheEntry) :
    List CacheEntry :=
  (evictCandidates maxItems entries).filter fun e => ¬e.locked

/-- The cache entries remaining after eviction. -/
def evictRemaining (maxItems : Nat) (entries : List CacheEntry) :
    List CacheEntry :=
  entries.filter fun e => e ∉ evictDeleted maxItems entries

/-! ## Theorems -/

/-- C2: for every combination of checkpoint presence, `detect_start_stage`
returns the first stage in the order rag (retrieve), summary (summarize),
plan whose checkpoint is missing, and the final generate (render) stage when
all three checkpoints exist. -/
theorem detect_start_stage_first_missing (hasRag hasSummary hasPlan : Bool) :
    detect_start_stage hasRag hasSummary hasPlan =
      ((([Stage.rag, Stage.summary, Stage.plan].zip
          [hasRag, hasSummary, hasPlan]).find? fun sc => ¬sc.2).map
        Prod.fst).getD Stage.generate := by
  cases hasRag <;> cases hasSummary <;> cases hasPlan <;> rfl

/-- C4: on an existing state, the first state `run_pipeline` persists (before
any stage executes) has the status of `from_stage` and of every later stage
reset to `"pending"`, and the status of every earlier stage exactly as it
was. -/
theorem run_pipeline_resets_from_stage (st : PipeState) (fromStage : Stage)
    (sid : Option String) (results : Stage → StageOutcome)
    (cancelled : Stage → Bool) (t : Stage) :
    ((run_pipeline (some st) fromStage sid results cancelled).saved.head?.map
        fun s0 => s0.stages t) =
      some (if fromStage.idx ≤ t.idx then "pending" else st.stages t) := by
  simp [run_pipeline, resetFromStage]

/-! ### Bbox invariants (C5, C10) -/

/-- The normalized-bbox invariant: `[x0,y0,x1,y1]` with
`0 ≤ x0 ≤ x1 ≤ w` and `0 ≤ y0 ≤ y1 ≤ h`. -/
def bboxWithin (b : List Int) (w h : Int) : Bool :=
  match b with
  | [x0, y0, x1, y1] =>
    0 ≤ x0 ∧ x0 ≤ x1 ∧ x1 ≤ w ∧ 0 ≤ y0 ∧ y0 ≤ y1 ∧ y1 ≤ h
  | _ => false

theorem clamp_bbox_within (x0 y0 x1 y1 w h : Int) (hw : 0 ≤ w) (hh : 0 ≤ h) :
    bboxWithin (clamp_bbox [x0, y0, x1, y1] w h) w h = true := by
  simp only [clamp_bbox]
  split <;> split <;>
    simp only [bboxWithin, decide_eq_true_eq] <;> omega

theorem mapMo_length {α β : Type} {f : α → Option β} :
    ∀ {xs : List α} {ys : List β}, mapMo f xs = some ys → ys.length = xs.length := by
  intro xs
  induction xs with
  | nil =>
    intro ys h
    simp only [mapMo, Option.some.injEq] at h
    simp [← h]
  | cons a t ih =>
    intro ys h
    simp only [mapMo] at h
    cases hfa : f a with
    | none => rw [hfa] at h; simp at h
    | some b =>
      rw [hfa] at h
      cases hft : mapMo f t with
      | none => rw [hft] at h; simp at h
      | some ts =>
        rw [hft] at h
        simp only [Option.some.injEq] at h
        simp [← h, ih hft]

theorem mapMo_mem {α β : Type} {f : α → Option β} :
    ∀ {xs : List α} {ys : List β}, mapMo f xs = some ys →
      ∀ y ∈ ys, ∃ x ∈ xs, f x = some y := by
  intro xs
  induction xs with
  | nil =>
    intro ys h
    simp only [mapMo, Option.some.injEq] at h
    simp [← h]
  | cons a t ih =>
    intro ys h
    simp only [mapMo] at h
    cases hfa : f a with
    | none => rw [hfa] at h; simp at h
    | some b =>
      rw [hfa] at h
      cases hft : mapMo f t with
      | none => rw [hft] at h; simp at h
      | some ts =>
        rw [hft] at h
        simp only [Option.some.injEq] at h
        subst h
        intro y hy
        rcases List.mem_cons.mp hy with rfl | hy
        · exact ⟨a, List.mem_cons_self a t, hfa⟩
        · obtain ⟨x, hx, hfx⟩ := ih hft y hy
          exact ⟨x, List.mem_cons_of_mem a hx, hfx⟩

theorem length_eq_four {α : Type} {l : List α} (h : l.length = 4) :
    ∃ a b c d, l = [a, b, c, d] := by
  match l, h with
  | [a, b, c, d], _ => exact ⟨a, b, c, d, rfl⟩

theorem mapPR_length {α β : Type} {f : α → PyRes β} :
    ∀ {xs : List α} {ys : List β}, mapPR f xs = .ok ys →
      ys.length = xs.length := by
  intro xs
  induction xs with
  | nil =>
    intro ys h
    simp only [mapPR, PyRes.ok.injEq] at h
    simp [← h]
  | cons a t ih =>
    intro ys h
    simp only [mapPR] at h
    cases hfa : f a with
    | ok b =>
      rw [hfa] at h
      cases hft : mapPR f t with
      | ok ts =>
        rw [hft] at h
        simp only [PyRes.ok.injEq] at h
        subst h
        simp [ih hft]
      | caught => rw [hft] at h; simp at h
      | raised => rw [hft] at h; simp at h
    | caught => rw [hfa] at h; simp at h
    | raised => rw [hfa] at h; simp at h

theorem coerce_bbox_length {v : PVal} {b : List Int}
    (h : coerce_bbox v = some (some b)) : b.length = 4 := by
  unfold coerce_bbox at h
  split at h
  case h_2 => exact absurd h (by simp)
  case h_1 xs =>
    split at h
    case isFalse => exact absurd h (by simp)
    case isTrue hlen =>
      split at h
      next l hl =>
        simp only [Option.some.injEq] at h
        subst h
        rw [mapPR_length hl, hlen]
      next => exact absurd h (by simp)
      next => exact absurd h (by simp)

/-- Every element emitted by `normalizeElement` is a dict whose coerced bbox
was clamped; its type and text obey the emission rules. -/
theorem normalizeElement_emitted {v : PVal} {w h : Int} {el : NormElement}
    (hv : normalizeElement v w h = some (some el)) :
    ∃ e b0, v = .dict e ∧ coerce_bbox (pyGet e "bbox") = some (some b0) ∧
      el.bbox = clamp_bbox b0 w h ∧ el.etype = rawTypeOf e ∧
      (el.etype = "text" →
        ∃ t0, el.text = some (pyStrip (pyStr t0)) ∧
          pyStrip (pyStr t0) ≠ "") := by
  unfold normalizeElement at hv
  split at hv
  case h_2 => exact absurd hv (by simp)
  case h_1 e =>
    refine ⟨e, ?_⟩
    split at hv
    case h_1 => exact absurd hv (by simp)
    case h_2 => exact absurd hv (by simp)
    case h_3 b0 hb0 =>
      refine ⟨b0, rfl, hb0, ?_⟩
      dsimp only at hv
      by_cases ht : rawTypeOf e = "text"
      · rw [if_pos ht] at hv
        by_cases hemp : pyStrip (pyStr (pyGetD e "text" (.str ""))) = ""
        · rw [if_pos hemp] at hv
          exact absurd hv (by simp)
        · rw [if_neg hemp] at hv
          split at hv
          next => exact absurd hv (by simp)
          next fs hfs =>
            split at hv
            next => exact absurd hv (by simp)
            next color hcolor =>
              simp only [Option.some.injEq] at hv
              subst hv
              exact ⟨rfl, rfl, fun _ =>
                ⟨pyGetD e "text" (.str ""), rfl, hemp⟩⟩
      · rw [if_neg ht] at hv
        by_cases htb : rawTypeOf e = "table"
        · rw [if_pos htb] at hv
          split at hv
          next rows =>
            split at hv
            next => exact absurd hv (by simp)
            next cells hm =>
              simp only [Option.some.injEq] at hv
              subst hv
              exact ⟨rfl, rfl, fun hc => absurd hc ht⟩
          next =>
            split at hv
            next => exact absurd hv (by simp)
            next rowsV hrows =>
              split at hv
              next => exact absurd hv (by simp)
              next colsV hcols =>
                simp only [Option.some.injEq] at hv
                subst hv
                exact ⟨rfl, rfl, fun hc => absurd hc ht⟩
        · rw [if_neg htb] at hv
          simp only [Option.some.injEq] at hv
          subst hv
          exact ⟨rfl, rfl, fun hc => absurd hc ht⟩

/-- Every element of a returned layout comes from `normalizeElement` on some
input element. -/
theorem normalize_layout_elements {layout : PVal} {w h : Int} {L : Layout}
    (hL : normalize_layout layout w h = some L) :
    ∀ el ∈ L.elements, ∃ v ∈ elementsOf layout,
      normalizeElement v w h = some (some el) := by
  intro el hel
  unfold normalize_layout at hL
  dsimp only at hL
  split at hL
  next => exact absurd hL (by simp)
  next processed hp =>
    simp only [Option.some.injEq] at hL
    subst hL
    simp only [List.mem_filterMap, id] at hel
    obtain ⟨o, ho, rfl⟩ := hel
    exact mapMo_mem hp _ ho

/-- C5: for every input bbox of four integers and nonnegative canvas
dimensions, the clamped bbox satisfies `0 ≤ x0 ≤ x1 ≤ width` and
`0 ≤ y0 ≤ y1 ≤ height`, and every element emitted by `_normalize_layout`
carries such a clamped bbox. -/
theorem clamp_and_normalize_bbox_invariant (w h : Int) (hw : 0 ≤ w)
    (hh : 0 ≤ h) :
    (∀ x0 y0 x1 y1 : Int,
        bboxWithin (clamp_bbox [x0, y0, x1, y1] w h) w h = true) ∧
    (∀ (layout : PVal) (L : Layout), normalize_layout layout w h = some L →
        ∀ el ∈ L.elements, bboxWithin el.bbox w h = true) := by
  refine ⟨fun x0 y0 x1 y1 => clamp_bbox_within x0 y0 x1 y1 w h hw hh, ?_⟩
  intro layout L hL el hel
  obtain ⟨v, _, hv⟩ := normalize_layout_elements hL el hel
  obtain ⟨e, b0, _, hb0, hbb, _, _⟩ := normalizeElement_emitted hv
  obtain ⟨a, b, c, d, rfl⟩ := length_eq_four (coerce_bbox_length hb0)
  rw [hbb]
  exact clamp_bbox_within a b c d w h hw hh

/-- C5 witness: concrete out-of-range and reversed coordinates on a 100×50
canvas, and a concrete layout payload run through `_normalize_layout`. -/
theorem clamp_and_normalize_bbox_invariant_witness :
    ((0 : Int) ≤ 100 ∧ (0 : Int) ≤ 50) ∧
      bboxWithin (clamp_bbox [120, -3, 4, 700] 100 50) 100 50 = true := by
  refine ⟨⟨by decide, by decide⟩, ?_⟩
  exact (clamp_and_normalize_bbox_invariant 100 50 (by decide) (by decide)).1
    120 (-3) 4 700

/-- C9: for a crop of width `W = x1-x0` and height `H = y1-y0` (both at
least `refine_min_size`, with positive area), if the model's refined bbox,
clamped to the crop, has any side smaller than 5 px or covers less than 15%
of the crop's area, `_refine_bbox` returns the original bbox unchanged;
otherwise it returns the clamped refined bbox translated by the crop origin
`(x0, y0)`. -/
theorem refine_bbox_decision (minSize x0 y0 x1 y1 rx0 ry0 rx1 ry1 : Int)
    (r : List Int) (hW : minSize ≤ x1 - x0) (hH : minSize ≤ y1 - y0)
    (harea : 1 ≤ (x1 - x0) * (y1 - y0))
    (hclamp : clamp_bbox r (x1 - x0) (y1 - y0) = [rx0, ry0, rx1, ry1]) :
    refine_bbox minSize [x0, y0, x1, y1] (some r) =
      if rx1 - rx0 < 5 ∨ ry1 - ry0 < 5 ∨
          (((rx1 - rx0) * (ry1 - ry0) : Int) : ℚ) /
              (((x1 - x0) * (y1 - y0) : Int) : ℚ) < 15 / 100
        then [x0, y0, x1, y1]
        else [x0 + rx0, y0 + ry0, x0 + rx1, y0 + ry1] := by
  have hmax : max ((x1 - x0) * (y1 - y0)) 1 = (x1 - x0) * (y1 - y0) :=
    max_eq_left harea
  have hpos : (0 : ℚ) < (((x1 - x0) * (y1 - y0) : Int) : ℚ) := by
    exact_mod_cast lt_of_lt_of_le Int.zero_lt_one harea
  have hratio :
      20 * ((rx1 - rx0) * (ry1 - ry0)) < 3 * ((x1 - x0) * (y1 - y0)) ↔
        (((rx1 - rx0) * (ry1 - ry0) : Int) : ℚ) /
            (((x1 - x0) * (y1 - y0) : Int) : ℚ) < 15 / 100 := by
    rw [div_lt_div_iff₀ hpos (by norm_num : (0 : ℚ) < 100)]
    constructor
    · intro hlt
      have : ((20 * ((rx1 - rx0) * (ry1 - ry0)) : Int) : ℚ) <
          ((3 * ((x1 - x0) * (y1 - y0)) : Int) : ℚ) := by exact_mod_cast hlt
      push_cast at this ⊢
      linarith
    · intro hlt
      have h2 : (((rx1 - rx0) * (ry1 - ry0) : Int) : ℚ) * 100 <
          15 * (((x1 - x0) * (y1 - y0) : Int) : ℚ) := hlt
      have h3 : ((rx1 - rx0) * (ry1 - ry0)) * 100 <
          15 * ((x1 - x0) * (y1 - y0)) := by exact_mod_cast h2
      omega
  simp only [refine_bbox]
  rw [if_neg (by omega : ¬(x1 - x0 < minSize ∨ y1 - y0 < minSize))]
  rw [hclamp]
  dsimp only
  by_cases h5 : rx1 - rx0 < 5 ∨ ry1 - ry0 < 5
  · rw [if_pos h5, if_pos]
    rcases h5 with h | h
    · exact Or.inl h
    · exact Or.inr (Or.inl h)
  · rw [if_neg h5]
    by_cases h3 : 20 * ((rx1 - rx0) * (ry1 - ry0)) <
        3 * max ((x1 - x0) * (y1 - y0)) 1
    · rw [if_pos h3, if_pos]
      right; right
      exact hratio.mp (hmax ▸ h3)
    · rw [if_neg h3, if_neg]
      rw [hmax] at h3
      push_neg at h5 ⊢
      exact ⟨h5.1, h5.2, le_of_not_lt fun hc => h3 (hratio.mpr hc)⟩

/-- C9 witness: a 100×100 crop with `refine_min_size = 40` and a refined
box `[10,10,60,60]`, which passes both guards and is translated back. -/
theorem refine_bbox_decision_witness :
    ((40 : Int) ≤ 100 - 0 ∧ (40 : Int) ≤ 100 - 0 ∧
      (1 : Int) ≤ (100 - 0) * (100 - 0) ∧
      clamp_bbox [10, 10, 60, 60] (100 - 0) (100 - 0) = [10, 10, 60, 60]) ∧
    refine_bbox 40 [0, 0, 100, 100] (some [10, 10, 60, 60]) =
      [0 + 10, 0 + 10, 0 + 60, 0 + 60] := by
  refine ⟨⟨by decide, by decide, by decide, by decide⟩, ?_⟩
  have h := refine_bbox_decision 40 0 0 100 100 10 10 60 60 [10, 10, 60, 60]
    (by decide) (by decide) (by decide) (by decide)
  rw [if_neg (by norm_num)] at h
  exact h

/-! ### Stage failure (C3) -/

/-- The stages strictly between `fromStage` and `S` in execution order. -/
def between (fromStage S : Stage) : List Stage :=
  (STAGES.drop fromStage.idx).takeWhile fun t => ¬(t = S)

/-- The stages after `S` in execution order, starting from `fromStage`. -/
def afterStage (fromStage S : Stage) : List Stage :=
  (((STAGES.drop fromStage.idx).dropWhile fun t => ¬(t = S))).tail

theorem between_spec :
    ∀ fromStage S t : Stage, fromStage.idx ≤ S.idx →
      (t ∈ between fromStage S ↔ fromStage.idx ≤ t.idx ∧ t.idx < S.idx) := by
  decide

theorem stages_drop_decomp :
    ∀ fromStage S : Stage, fromStage.idx ≤ S.idx →
      STAGES.drop fromStage.idx =
        between fromStage S ++ S :: afterStage fromStage S := by
  decide

theorem stage_idx_inj : ∀ s t : Stage, s.idx = t.idx → s = t := by
  decide

/-- Behaviour of the stage loop when every stage of `L1` succeeds without
cancellation and then `S` raises `msg`: exactly `L1 ++ [S]` is executed,
`L1` ends completed, `S` ends failed with the error persisted, and nothing
else changes. -/
theorem runStages_fail (results : Stage → StageOutcome)
    (cancelled : Stage → Bool) (S : Stage) (msg : String)
    (hS : cancelled S = false) (hf : results S = .raised msg) :
    ∀ (L1 : List Stage) (L2 : List Stage) (st : PipeState),
      (∀ t ∈ L1, results t = .ok ∧ cancelled t = false) →
      (runStages results cancelled st (L1 ++ S :: L2)).executed = L1 ++ [S] ∧
      (runStages results cancelled st (L1 ++ S :: L2)).raised = Option.none ∧
      (runStages results cancelled st (L1 ++ S :: L2)).final.error = some msg ∧
      (∀ t : Stage,
        (runStages results cancelled st (L1 ++ S :: L2)).final.stages t =
          if t = S then "failed"
          else if t ∈ L1 then "completed"
          else st.stages t) := by
  intro L1
  induction L1 with
  | nil =>
    intro L2 st _
    simp only [List.nil_append, runStages, hS, hf]
    refine ⟨rfl, rfl, rfl, ?_⟩
    intro t
    by_cases ht : t = S
    · simp [ht, setStage]
    · simp [ht, setStage]
  | cons a L1 ih =>
    intro L2 st hok
    have ha := hok a (List.mem_cons_self a L1)
    have hrest : ∀ t ∈ L1, results t = .ok ∧ cancelled t = false :=
      fun t ht => hok t (List.mem_cons_of_mem a ht)
    simp only [List.cons_append, runStages, ha.1, ha.2]
    simp only [Bool.false_eq_true, if_false]
    obtain ⟨hex, hraised, herr, hstages⟩ :=
      ih L2 (setStage (setStage st a "running") a "completed") hrest
    refine ⟨by simp [hex], by simp [hraised], herr, ?_⟩
    simp only [List.append_eq]
    intro t
    rw [hstages t]
    by_cases htS : t = S
    · simp [htS]
    · by_cases htL : t ∈ L1
      · simp [htS, htL]
      · by_cases hta : t = a
        · simp [htS, htL, hta, setStage]
        · simp [htS, htL, hta, setStage]

/-- C3 (amended): if every stage from `from_stage` up to `S` runs without
cancellation, the stages before `S` succeed and `S` raises `msg`, then the
final state has `S` failed with the error field equal to the exception's
message, no stage after `S` is executed, the stages executed before `S`
remain completed, and stages before `from_stage` keep their prior status. -/
theorem run_pipeline_stage_failure (initial : Option PipeState)
    (fromStage S : Stage) (sid : Option String)
    (results : Stage → StageOutcome) (cancelled : Stage → Bool)
    (msg : String) (hfS : fromStage.idx ≤ S.idx)
    (hprev : ∀ t : Stage, fromStage.idx ≤ t.idx → t.idx < S.idx →
      results t = .ok ∧ cancelled t = false)
    (hS : cancelled S = false) (hfail : results S = .raised msg) :
    (run_pipeline initial fromStage sid results cancelled).final.stages S
        = "failed" ∧
    (run_pipeline initial fromStage sid results cancelled).final.error
        = some msg ∧
    (∀ t : Stage, S.idx < t.idx →
      t ∉ (run_pipeline initial fromStage sid results cancelled).executed) ∧
    (∀ t : Stage, fromStage.idx ≤ t.idx → t.idx < S.idx →
      (run_pipeline initial fromStage sid results cancelled).final.stages t
        = "completed") ∧
    (∀ t : Stage, t.idx < fromStage.idx →
      (run_pipeline initial fromStage sid results cancelled).final.stages t
        = match initial with
          | some st => st.stages t
          | none => "pending") := by
  have hL1 : ∀ t ∈ between fromStage S, results t = .ok ∧ cancelled t = false :=
    fun t ht =>
      have hm := (between_spec fromStage S t hfS).mp ht
      hprev t hm.1 hm.2
  unfold run_pipeline
  dsimp only
  rw [stages_drop_decomp fromStage S hfS]
  obtain ⟨hex, _, herr, hstages⟩ :=
    runStages_fail results cancelled S msg hS hfail
      (between fromStage S) (afterStage fromStage S) _ hL1
  rw [hex]
  refine ⟨?_, herr, ?_, ?_, ?_⟩
  · rw [hstages S]; simp
  · intro t htgt hmem
    rcases List.mem_append.mp hmem with hmem | hmem
    · exact absurd ((between_spec fromStage S t hfS).mp hmem).2 (by omega)
    · have hts : t = S := by simpa using hmem
      subst hts
      omega
  · intro t h1 h2
    rw [hstages t]
    have htS : ¬(t = S) := fun hc => by subst hc; omega
    have htL : t ∈ between fromStage S := (between_spec fromStage S t hfS).mpr ⟨h1, h2⟩
    simp [htS, htL]
  · intro t hlt
    rw [hstages t]
    have htS : ¬(t = S) := fun hc => by subst hc; omega
    have htL : t ∉ between fromStage S := fun hc =>
      absurd ((between_spec fromStage S t hfS).mp hc).1 (by omega)
    simp only [htS, if_false, htL, if_false]
    cases initial with
    | none => rfl
    | some st =>
      simp only [resetFromStage]
      rw [if_neg (by omega)]

/-- C3 witness: resuming from `summary` on a fully completed state, with
`plan` raising `"boom"`: plan fails with the error persisted, `generate` is
not executed, `summary` is completed and `rag` keeps its prior status. -/
theorem run_pipeline_stage_failure_witness :
    (Stage.summary.idx ≤ Stage.plan.idx) ∧
    (run_pipeline (some ⟨fun _ => "completed", Option.none, Option.none⟩)
        .summary Option.none
        (fun t => if t = Stage.plan then .raised "boom" else .ok)
        (fun _ => false)).final.stages .plan = "failed" ∧
    (run_pipeline (some ⟨fun _ => "completed", Option.none, Option.none⟩)
        .summary Option.none
        (fun t => if t = Stage.plan then .raised "boom" else .ok)
        (fun _ => false)).final.error = some "boom" ∧
    (Stage.generate ∉ (run_pipeline
        (some ⟨fun _ => "completed", Option.none, Option.none⟩)
        .summary Option.none
        (fun t => if t = Stage.plan then .raised "boom" else .ok)
        (fun _ => false)).executed) ∧
    (run_pipeline (some ⟨fun _ => "completed", Option.none, Option.none⟩)
        .summary Option.none
        (fun t => if t = Stage.plan then .raised "boom" else .ok)
        (fun _ => false)).final.stages .summary = "completed" ∧
    (run_pipeline (some ⟨fun _ => "completed", Option.none, Option.none⟩)
        .summary Option.none
        (fun t => if t = Stage.plan then .raised "boom" else .ok)
        (fun _ => false)).final.stages .rag = "completed" := by
  have h := run_pipeline_stage_failure
    (some ⟨fun _ => "completed", Option.none, Option.none⟩)
    .summary .plan Option.none
    (fun t => if t = Stage.plan then .raised "boom" else .ok)
    (fun _ => false) "boom" (by decide) (by decide) (by decide) (by decide)
  exact ⟨by decide, h.1, h.2.1, h.2.2.1 .generate (by decide),
    h.2.2.2.1 .summary (by decide) (by decide),
    h.2.2.2.2 .rag (by decide)⟩

/-- C3 counterexample to the non-empty-error conjunct: a stage raising an
exception whose `str(e)` is the empty string (`Exception()`) persists an
empty `error` field. -/
theorem run_pipeline_empty_error_persisted :
    (run_pipeline (some ⟨fun _ => "pending", Option.none, Option.none⟩)
        .rag Option.none (fun _ => .raised "") (fun _ => false)).final.stages
        .rag = "failed" ∧
    (run_pipeline (some ⟨fun _ => "pending", Option.none, Option.none⟩)
        .rag Option.none (fun _ => .raised "") (fun _ => false)).final.error
        = some "" := by
  exact ⟨rfl, rfl⟩

/-! ### Layout normalization shape invariants (C10) -/

/-- Is a Python float finite? -/
def finPF : PFloat → Bool
  | .fin _ => true
  | _ => false

mutual

/-- No value in the tree can feed a non-finite float into a coercion: every
float is finite, every int is within the double range, and no string parses
to a non-finite float. -/
def allFinite : PVal → Bool
  | .none => true
  | .bool _ => true
  | .int n => !(intFloatOverflow n)
  | .float x => finPF x
  | .str s =>
    match parseFloatStr s with
    | some x => finPF x
    | Option.none => true
  | .list xs => allFiniteL xs
  | .dict xs => allFiniteD xs

def allFiniteL : List PVal → Bool
  | [] => true
  | x :: t => allFinite x && allFiniteL t

def allFiniteD : List (String × PVal) → Bool
  | [] => true
  | kv :: t => allFinite kv.2 && allFiniteD t

end

/-- The uncaught `OverflowError` path the finiteness proviso excludes: an
infinite float in a bbox (as `json.loads` yields for `Infinity` or `1e400`)
reaches `int(round(float(v)))`, whose `except (TypeError, ValueError)` does
not catch `OverflowError`, so `_normalize_layout` raises. -/
theorem normalize_layout_raises_on_infinite_bbox :
    normalize_layout
      (.dict [("elements", .list [.dict
        [("type", .str "image"),
         ("bbox", .list [.float .inf, .int 0, .int 0, .int 0])]])]) 100 100
      = Option.none := by
  rfl

theorem splitLines_ne_nil (t : List Char) : splitLines t ≠ [] := by
  cases t with
  | nil => simp [splitLines]
  | cons c rest =>
    by_cases hc : c = '\n'
    · simp [splitLines, hc]
    · simp only [splitLines, hc, if_false]
      cases splitLines rest <;> simp

theorem splitLines_cons_nl (rest : List Char) :
    splitLines ('\n' :: rest) = [] :: splitLines rest := by
  simp [splitLines]

theorem splitLines_cons_ne (a : Char) (rest : List Char) (ha : ¬(a = '\n')) :
    splitLines (a :: rest) =
      match splitLines rest with
      | h :: t => (a :: h) :: t
      | [] => [[a]] := by
  simp [splitLines, ha]

theorem splitLines_append_newline (t : List Char) :
    splitLines (t ++ ['\n']) = splitLines t ++ [[]] := by
  induction t with
  | nil => rfl
  | cons c rest ih =>
    by_cases hc : c = '\n'
    · subst hc
      rw [List.cons_append, splitLines_cons_nl, splitLines_cons_nl, ih,
        List.cons_append]
    · rw [List.cons_append, splitLines_cons_ne c _ hc,
        splitLines_cons_ne c rest hc, ih]
      cases hs : splitLines rest with
      | nil => exact absurd hs (splitLines_ne_nil rest)
      | cons h tl => simp

theorem splitLines_append_char (t : List Char) (c : Char) (hc : ¬(c = '\n')) :
    ∃ L lst, splitLines t = L ++ [lst] ∧
      splitLines (t ++ [c]) = L ++ [lst ++ [c]] := by
  induction t with
  | nil =>
    refine ⟨[], [], rfl, ?_⟩
    simp [splitLines, hc]
  | cons a rest ih =>
    obtain ⟨L, lst, h1, h2⟩ := ih
    by_cases ha : a = '\n'
    · subst ha
      refine ⟨[] :: L, lst, ?_, ?_⟩
      · rw [splitLines_cons_nl, h1, List.cons_append]
      · rw [List.cons_append, splitLines_cons_nl, h2, List.cons_append]
    · cases L with
      | nil =>
        simp only [List.nil_append] at h1 h2
        refine ⟨[], a :: lst, ?_, ?_⟩
        · rw [splitLines_cons_ne a rest ha, h1]
          simp
        · rw [List.cons_append, splitLines_cons_ne a _ ha, h2]
          simp
      | cons h0 L2 =>
        refine ⟨(a :: h0) :: L2, lst, ?_, ?_⟩
        · rw [splitLines_cons_ne a rest ha, h1]
          simp
        · rw [List.cons_append, splitLines_cons_ne a _ ha, h2]
          simp

theorem lineWeight_append (x y : List Char) :
    lineWeight (x ++ y) = lineWeight x + lineWeight y := by
  simp [lineWeight, List.map_append, List.sum_append]

theorem needFormula_mono (fs w a b : Nat) (h : a ≤ b) :
    max 1 ((a * fs / 2 + w - 1) / w) ≤ max 1 ((b * fs / 2 + w - 1) / w) := by
  apply max_le_max (le_refl 1)
  apply Nat.div_le_div_right
  have h1 : a * fs ≤ b * fs := Nat.mul_le_mul_right fs h
  have h2 : a * fs / 2 ≤ b * fs / 2 := Nat.div_le_div_right h1
  omega

theorem lineNeed_append_char (fs w : Nat) (l : List Char) (c : Char) :
    lineNeed fs w l ≤ lineNeed fs w (l ++ [c]) := by
  cases l with
  | nil =>
    simp only [lineNeed, List.isEmpty_nil, if_true, List.nil_append]
    rw [if_neg (by simp)]
    exact le_max_left 1 _
  | cons a rest =>
    rw [lineNeed, lineNeed, if_neg (by simp), if_neg (by simp)]
    have hwt : lineWeight (a :: rest) ≤ lineWeight ((a :: rest) ++ [c]) := by
      rw [lineWeight_append]
      exact Nat.le_add_right _ _
    exact needFormula_mono fs w _ _ hwt

theorem requiredLines_append_char (fs w : Nat) (t : List Char) (c : Char) :
    requiredLines fs w t ≤ requiredLines fs w (t ++ [c]) := by
  by_cases hc : c = '\n'
  · subst hc
    rw [requiredLines, requiredLines, splitLines_append_newline]
    simp [lineNeed]
  · obtain ⟨L, lst, h1, h2⟩ := splitLines_append_char t c hc
    rw [requiredLines, requiredLines, h1, h2]
    simp only [List.map_append, List.sum_append, List.map_cons,
      List.map_nil, List.sum_cons, List.sum_nil]
    have := lineNeed_append_char fs w lst c
    omega

theorem requiredLines_append (fs w : Nat) (t ext : List Char) :
    requiredLines fs w t ≤ requiredLines fs w (t ++ ext) := by
  induction ext generalizing t with
  | nil => simp
  | cons c ext ih =>
    calc requiredLines fs w t ≤ requiredLines fs w (t ++ [c]) :=
          requiredLines_append_char fs w t c
      _ ≤ requiredLines fs w ((t ++ [c]) ++ ext) := ih (t ++ [c])
      _ = requiredLines fs w (t ++ c :: ext) := by simp

theorem fitsSize_of_append (w : Nat) (heightPt : ℚ) (t ext : List Char)
    (fs : Nat) (h : fitsSize w heightPt (t ++ ext) fs = true) :
    fitsSize w heightPt t fs = true := by
  simp only [fitsSize, decide_eq_true_eq] at h ⊢
  calc (requiredLines fs w t : ℚ) * (fs : ℚ)
      ≤ (requiredLines fs w (t ++ ext) : ℚ) * (fs : ℚ) := by
        have := requiredLines_append fs w t ext
        exact mul_le_mul_of_nonneg_right (by exact_mod_cast this)
          (by positivity)
    _ ≤ heightPt := h

theorem findFit_some {w : Nat} {heightPt : ℚ} {text : List Char}
    {li : List Nat} {s : Nat} (h : findFit w heightPt text li = some s) :
    s ∈ li ∧ fitsSize w heightPt text s = true := by
  induction li with
  | nil => simp [findFit] at h
  | cons fs rest ih =>
    by_cases hfs : fitsSize w heightPt text fs = true
    · rw [findFit, if_pos hfs] at h
      simp only [Option.some.injEq] at h
      subst h
      exact ⟨List.mem_cons_self _ _, hfs⟩
    · rw [findFit, if_neg hfs] at h
      obtain ⟨hm, hf⟩ := ih h
      exact ⟨List.mem_cons_of_mem _ hm, hf⟩

theorem findFit_none {w : Nat} {heightPt : ℚ} {text : List Char}
    {li : List Nat} (h : findFit w heightPt text li = Option.none) :
    ∀ x ∈ li, ¬(fitsSize w heightPt text x = true) := by
  induction li with
  | nil => simp
  | cons fs rest ih =>
    by_cases hfs : fitsSize w heightPt text fs = true
    · rw [findFit, if_pos hfs] at h
      simp at h
    · rw [findFit, if_neg hfs] at h
      intro x hx
      rcases List.mem_cons.mp hx with rfl | hx
      · exact hfs
      · exact ih h x hx

theorem findFit_greatest {w : Nat} {heightPt : ℚ} {text : List Char}
    {li : List Nat} {s : Nat}
    (hsorted : List.Pairwise (fun a b => b < a) li)
    (h : findFit w heightPt text li = some s) :
    ∀ x ∈ li, fitsSize w heightPt text x = true → x ≤ s := by
  induction li with
  | nil => simp
  | cons fs rest ih =>
    by_cases hfs : fitsSize w heightPt text fs = true
    · rw [findFit, if_pos hfs] at h
      simp only [Option.some.injEq] at h
      subst h
      intro x hx _
      rcases List.mem_cons.mp hx with rfl | hx
      · exact le_refl _
      · exact le_of_lt ((List.pairwise_cons.mp hsorted).1 x hx)
    · rw [findFit, if_neg hfs] at h
      intro x hx hfit
      rcases List.mem_cons.mp hx with rfl | hx
      · exact absurd hfit hfs
      · exact ih (List.pairwise_cons.mp hsorted).2 h x hx hfit

theorem mem_sizeCandidates (x : Nat) :
    x ∈ sizeCandidates ↔ MIN_FONT_SIZE ≤ x ∧ x ≤ MAX_FONT_SIZE := by
  simp only [sizeCandidates, List.mem_map, List.mem_range,
    MIN_FONT_SIZE, MAX_FONT_SIZE]
  constructor
  · rintro ⟨i, hi, rfl⟩
    omega
  · rintro ⟨h1, h2⟩
    exact ⟨200 - x, by omega, by omega⟩

theorem sizeCandidates_sorted :
    List.Pairwise (fun a b => b < a) sizeCandidates := by
  rw [sizeCandidates, List.pairwise_map]
  have := List.pairwise_lt_range (MAX_FONT_SIZE - MIN_FONT_SIZE + 1)
  refine this.imp_of_mem ?_
  intro a b ha hb hab
  simp only [List.mem_range, MAX_FONT_SIZE, MIN_FONT_SIZE] at ha hb ⊢
  omega

/-- Reduction of `calculate_font_size` past its guards when the usable
width is positive and its integer part nonzero. -/
theorem calculate_font_size_eq (x0 y0 x1 y1 : Int) (text : List Char)
    (dpi0 : Nat) (dpi : Nat) (widthPt heightPt : ℚ)
    (hdpi : dpi = if dpi0 = 0 then DEFAULT_DPI else dpi0)
    (hwid : widthPt = ((x1 - x0 : Int) : ℚ) * 72 / (dpi : ℚ))
    (hhei : heightPt = ((y1 - y0 : Int) : ℚ) * 72 / (dpi : ℚ))
    (hp : 0 < widthPt) (hh : 0 < heightPt) (h1 : 1 ≤ widthPt.floor.toNat) :
    calculate_font_size [x0, y0, x1, y1] text dpi0 =
      some ((findFit widthPt.floor.toNat heightPt text
        sizeCandidates).getD MIN_FONT_SIZE) := by
  subst hdpi
  subst hwid
  subst hhei
  unfold calculate_font_size
  dsimp only
  rw [if_neg (by push_neg; exact ⟨hp, hh⟩)]
  rw [if_neg (by
    rintro ⟨hz, _⟩
    omega)]

/-- C6 (amended): whenever the usable width in points is positive with
nonzero integer part (`int(usable_width_pt) ≥ 1`, excluding the
`ZeroDivisionError` corner) and the usable height is positive,
`calculate_font_size` returns the largest candidate size in
`[MIN_FONT_SIZE, MAX_FONT_SIZE] = [6, 200]` whose estimated required height
fits the bbox (the minimum size if none fits), so the size lies in
`[6, 200]`, and extending the text by appending characters never increases
the returned size. -/
theorem calculate_font_size_props (x0 y0 x1 y1 : Int) (text : List Char)
    (dpi0 : Nat) (dpi : Nat) (widthPt heightPt : ℚ)
    (hdpi : dpi = if dpi0 = 0 then DEFAULT_DPI else dpi0)
    (hwid : widthPt = ((x1 - x0 : Int) : ℚ) * 72 / (dpi : ℚ))
    (hhei : heightPt = ((y1 - y0 : Int) : ℚ) * 72 / (dpi : ℚ))
    (hp : 0 < widthPt) (hh : 0 < heightPt) (h1 : 1 ≤ widthPt.floor.toNat) :
    ∃ s, calculate_font_size [x0, y0, x1, y1] text dpi0 = some s ∧
      MIN_FONT_SIZE ≤ s ∧ s ≤ MAX_FONT_SIZE ∧
      (fitsSize widthPt.floor.toNat heightPt text s = true ∨
        s = MIN_FONT_SIZE) ∧
      (∀ s', MIN_FONT_SIZE ≤ s' → s' ≤ MAX_FONT_SIZE →
        fitsSize widthPt.floor.toNat heightPt text s' = true → s' ≤ s) ∧
      (∀ ext s', calculate_font_size [x0, y0, x1, y1] (text ++ ext) dpi0
          = some s' → s' ≤ s) := by
  have heq := calculate_font_size_eq x0 y0 x1 y1 text dpi0 dpi widthPt
    heightPt hdpi hwid hhei hp hh h1
  cases hf : findFit widthPt.floor.toNat heightPt text sizeCandidates with
  | some s =>
    rw [hf] at heq
    obtain ⟨hmem, hfits⟩ := findFit_some hf
    obtain ⟨hs1, hs2⟩ := (mem_sizeCandidates s).mp hmem
    refine ⟨s, heq, hs1, hs2, Or.inl hfits, ?_, ?_⟩
    · intro s' h1' h2' hfit
      exact findFit_greatest sizeCandidates_sorted hf s'
        ((mem_sizeCandidates s').mpr ⟨h1', h2'⟩) hfit
    · intro ext s' hes
      have heq' := calculate_font_size_eq x0 y0 x1 y1 (text ++ ext) dpi0 dpi
        widthPt heightPt hdpi hwid hhei hp hh h1
      rw [heq'] at hes
      simp only [Option.some.injEq] at hes
      subst hes
      cases hf' : findFit widthPt.floor.toNat heightPt (text ++ ext)
          sizeCandidates with
      | some s2 =>
        obtain ⟨hmem2, hfits2⟩ := findFit_some hf'
        have hfits2' := fitsSize_of_append _ _ _ _ _ hfits2
        simpa using findFit_greatest sizeCandidates_sorted hf s2 hmem2 hfits2'
      | none =>
        simpa using hs1
  | none =>
    rw [hf] at heq
    refine ⟨MIN_FONT_SIZE, heq, le_refl _, by simp [MIN_FONT_SIZE, MAX_FONT_SIZE],
      Or.inr rfl, ?_, ?_⟩
    · intro s' h1' h2' hfit
      exact absurd hfit
        (findFit_none hf s' ((mem_sizeCandidates s').mpr ⟨h1', h2'⟩))
    · intro ext s' hes
      have heq' := calculate_font_size_eq x0 y0 x1 y1 (text ++ ext) dpi0 dpi
        widthPt heightPt hdpi hwid hhei hp hh h1
      rw [heq'] at hes
      simp only [Option.some.injEq] at hes
      subst hes
      cases hf' : findFit widthPt.floor.toNat heightPt (text ++ ext)
          sizeCandidates with
      | some s2 =>
        obtain ⟨hmem2, hfits2⟩ := findFit_some hf'
        exact absurd (fitsSize_of_append _ _ _ _ _ hfits2)
          (findFit_none hf s2 hmem2)
      | none =>
        simp

/-- `Rat.floor` (used executably in the embedding) agrees with the
`FloorRing` floor. -/
theorem rat_floor_eq_int_floor (q : ℚ) : q.floor = ⌊q⌋ := by
  rw [Rat.floor_def']
  exact Rat.floor_def.symm

/-- C6 counterexample to the claim as stated: a 1-pixel-wide bbox at the
default DPI gives `usable_width_pt = 0.75 > 0` but
`int(usable_width_pt) = 0`, and a non-empty line then raises
`ZeroDivisionError` instead of returning a size in `[6, 200]`. -/
theorem calculate_font_size_zero_division :
    calculate_font_size [0, 0, 1, 20] ['a'] 96 = Option.none := by
  unfold calculate_font_size
  dsimp only
  rw [if_neg (by norm_num)]
  rw [if_pos ?_]
  constructor
  · rw [rat_floor_eq_int_floor]
    norm_num
  · decide

/-- C6 witness: a 960×96 px bbox at the default DPI (720 pt × 72 pt usable
space) with the text `"ab"`. -/
theorem calculate_font_size_props_witness :
    ((0 : ℚ) < 720 ∧ (0 : ℚ) < 72 ∧ 1 ≤ (720 : ℚ).floor.toNat) ∧
    ∃ s, calculate_font_size [0, 0, 960, 96] ['a', 'b'] 0 = some s ∧
      MIN_FONT_SIZE ≤ s ∧ s ≤ MAX_FONT_SIZE := by
  have hfl : (720 : ℚ).floor.toNat = 720 := by
    rw [rat_floor_eq_int_floor]
    simp
  refine ⟨⟨by norm_num, by norm_num, by rw [hfl]; decide⟩, ?_⟩
  obtain ⟨s, hs, hs1, hs2, _⟩ := calculate_font_size_props 0 0 960 96
    ['a', 'b'] 0 96 720 72 (by rfl) (by norm_num) (by norm_num)
    (by norm_num) (by norm_num) (by rw [hfl]; decide)
  exact ⟨s, hs, hs1, hs2⟩

/-! ### Cache eviction (C8) -/

theorem length_filter_add_not {α : Type} (p : α → Bool) (l : List α) :
    (l.filter p).length + (l.filter fun a => !(p a)).length = l.length := by
  induction l with
  | nil => simp
  | cons a t ih => by_cases h : p a <;> simp [h, ← ih] <;> omega

theorem length_filter_mem {α : Type} [DecidableEq α] {l d : List α}
    (hl : l.Nodup) (hd : d.Nodup) (hsub : ∀ x ∈ d, x ∈ l) :
    (l.filter fun e => decide (e ∈ d)).length = d.length := by
  have hperm : (l.filter fun e => decide (e ∈ d)).Perm d := by
    rw [List.perm_ext_iff_of_nodup (hl.filter _) hd]
    intro a
    simp only [List.mem_filter, decide_eq_true_eq]
    exact ⟨fun h => h.2, fun h => ⟨hsub a h, h⟩⟩
  exact hperm.length_eq

/-- C8 (amended): eviction deletes only unlocked over-capacity candidates —
entries of the oldest `len - max_items` non-dot directories — so it never
deletes a directory whose `.lock` is held by another process nor a
dot-prefixed directory, and afterwards the number of remaining (non-dot)
entries exceeds the capacity by at most the number of locked entries left
behind.  (It does not exclude the current request's directory: eviction runs
before the request's key is even computed; see the counterexample.) -/
theorem evict_props (maxItems : Nat) (entries : List CacheEntry)
    (hnd : entries.Nodup) :
    (∀ e ∈ evictDeleted maxItems entries, e.locked = false) ∧
    (∀ e ∈ evictDeleted maxItems entries,
      e ∈ evictCandidates maxItems entries ∧ dotName e.name = false) ∧
    (maxItems ≠ 0 →
      (evictListed (evictRemaining maxItems entries)).length ≤
        maxItems +
          ((evictRemaining maxItems entries).filter fun e => e.locked).length) := by
  have hcand_sub : ∀ e ∈ evictCandidates maxItems entries,
      e ∈ evictListed entries := by
    intro e he
    unfold evictCandidates at he
    split at he
    · simp at he
    · dsimp only at he
      split at he
      · simp at he
      · exact (List.perm_insertionSort _ _).mem_iff.mp
          (List.take_subset _ _ he)
  refine ⟨?_, ?_, ?_⟩
  · intro e he
    unfold evictDeleted at he
    have := (List.mem_filter.mp he).2
    simpa using this
  · intro e he
    unfold evictDeleted at he
    obtain ⟨hec, _⟩ := List.mem_filter.mp he
    refine ⟨hec, ?_⟩
    have := hcand_sub e hec
    unfold evictListed at this
    have := (List.mem_filter.mp this).2
    simpa using this
  · intro hm
    by_cases hle : (evictListed entries).length ≤ maxItems
    · have hcand : evictCandidates maxItems entries = [] := by
        unfold evictCandidates
        rw [if_neg hm, if_pos hle]
      have hdel : evictDeleted maxItems entries = [] := by
        unfold evictDeleted
        rw [hcand]
        rfl
      have hrem : evictRemaining maxItems entries = entries := by
        unfold evictRemaining
        rw [hdel]
        simp
      rw [hrem]
      calc (evictListed entries).length ≤ maxItems := hle
        _ ≤ _ := Nat.le_add_right _ _
    · -- over capacity
      set listed := evictListed entries with hlisted
      set sorted := List.insertionSort mtimeLe listed with hsorted
      set cands := evictCandidates maxItems entries with hcands
      set deleted := evictDeleted maxItems entries with hdeleted
      have hNodupListed : listed.Nodup := hnd.filter _
      have hperm : sorted.Perm listed := List.perm_insertionSort _ _
      have hNodupSorted : sorted.Nodup := hperm.symm.nodup hNodupListed
      have hSortedLen : sorted.length = listed.length := hperm.length_eq
      have hcands_eq : cands = sorted.take (listed.length - maxItems) := by
        rw [hcands]
        unfold evictCandidates
        rw [if_neg hm, if_neg hle]
      have hCandsNodup : cands.Nodup := by
        rw [hcands_eq]
        exact (List.take_sublist _ _).nodup hNodupSorted
      have hCandsLen : cands.length = listed.length - maxItems := by
        rw [hcands_eq, List.length_take, hSortedLen]
        omega
      have hDelNodup : deleted.Nodup := by
        rw [hdeleted]
        unfold evictDeleted
        exact hCandsNodup.filter _
      have hDelSubCands : ∀ x ∈ deleted, x ∈ cands := by
        intro x hx
        rw [hdeleted] at hx
        unfold evictDeleted at hx
        exact (List.mem_filter.mp hx).1
      have hDelSubListed : ∀ x ∈ deleted, x ∈ listed :=
        fun x hx => hcand_sub x (hDelSubCands x hx)
      have hDelLen : deleted.length ≤ cands.length := by
        rw [hdeleted]
        unfold evictDeleted
        exact List.length_filter_le _ _
      -- the listed part of the remaining entries
      have hremlisted : evictListed (evictRemaining maxItems entries) =
          listed.filter fun e => decide (e ∉ deleted) := by
        unfold evictRemaining evictListed
        rw [hlisted]
        unfold evictListed
        rw [List.filter_filter, List.filter_filter]
        exact List.filter_congr fun a _ => by rw [Bool.and_comm]
      have hsplit := length_filter_add_not
        (fun e => decide (e ∈ deleted)) listed
      have hmemlen := length_filter_mem hNodupListed hDelNodup hDelSubListed
      have hnotform : (listed.filter fun e => decide (e ∉ deleted)) =
          (listed.filter fun e => !(decide (e ∈ deleted))) := by
        exact List.filter_congr fun a _ => by rw [decide_not]
      -- locked candidates survive into the remaining entries
      have hLockedCandsLen :
          (cands.filter fun e => e.locked).length =
            cands.length - deleted.length := by
        have h2 := length_filter_add_not (fun e : CacheEntry => e.locked) cands
        have h3 : (cands.filter fun e => !(CacheEntry.locked e)).length =
            deleted.length := by
          rw [hdeleted]
          unfold evictDeleted
          rw [← hcands]
          congr 1
          exact List.filter_congr fun a _ => by simp
        omega
      have hLockedSub : ∀ x ∈ cands.filter fun e => e.locked,
          x ∈ (evictRemaining maxItems entries).filter fun e => e.locked := by
        intro x hx
        obtain ⟨hxc, hxl⟩ := List.mem_filter.mp hx
        refine List.mem_filter.mpr ⟨?_, hxl⟩
        unfold evictRemaining
        refine List.mem_filter.mpr ⟨?_, ?_⟩
        · have hxlst := hcand_sub x hxc
          rw [hlisted] at hxlst
          unfold evictListed at hxlst
          exact (List.mem_filter.mp hxlst).1
        · simp only [decide_eq_true_eq]
          intro hxd
          unfold evictDeleted at hxd
          have hunl := (List.mem_filter.mp hxd).2
          simp only [decide_eq_true_eq] at hunl
          exact hunl hxl
      have hLockedNodup : (cands.filter fun e => e.locked).Nodup :=
        hCandsNodup.filter _
      have hLockedLe :
          (cands.filter fun e => e.locked).length ≤
            ((evictRemaining maxItems entries).filter
              fun e => e.locked).length :=
        (hLockedNodup.subperm hLockedSub).length_le
      rw [hremlisted, hnotform]
      omega

/-- C8 witness: three nodup entries, capacity 1: the oldest unlocked
candidate is deleted, the locked one survives, and the remaining two
entries exceed the capacity by exactly that locked entry. -/
theorem evict_props_witness :
    ([⟨"aa", 0, true⟩, ⟨"bb", 1, false⟩, ⟨"cc", 2, false⟩] :
        List CacheEntry).Nodup ∧ (1 : Nat) ≠ 0 ∧
    (evictListed (evictRemaining 1
        [⟨"aa", 0, true⟩, ⟨"bb", 1, false⟩, ⟨"cc", 2, false⟩])).length ≤
      1 + ((evictRemaining 1
        [⟨"aa", 0, true⟩, ⟨"bb", 1, false⟩, ⟨"cc", 2, false⟩]).filter
          fun e => e.locked).length := by
  refine ⟨by decide, by decide, ?_⟩
  exact (evict_props 1 [⟨"aa", 0, true⟩, ⟨"bb", 1, false⟩, ⟨"cc", 2, false⟩]
    (by decide)).2.2 (by decide)

/-- C8 counterexample to "never deletes the current request's cache
directory": eviction runs before the request's key directory is locked (and
before the key is even computed), so with capacity 1 the directory named by
the current request's own cache key — here the key of the request
`files = [("a", [0])]`, `options = []` — is deleted when it is oldest and
unlocked. -/
theorem evict_deletes_current_request_dir :
    evictDeleted 1
      [⟨compute_cache_key [("a", [0])] [], 0, false⟩, ⟨"zz", 5, false⟩] =
      [⟨compute_cache_key [("a", [0])] [], 0, false⟩] := by
  decide

/-! ### Cache key (C1) -/

theorem sha256_length (msg : List Nat) : (sha256 msg).length = 32 := by
  simp [sha256, wordBytes]

theorem toHex_length (bytes : List Nat) :
    (toHex bytes).length = 2 * bytes.length := by
  induction bytes with
  | nil => rfl
  | cons b t ih =>
    simp only [toHex, List.flatMap_cons] at ih ⊢
    simp [ih]
    omega

theorem hexChar_mem (n : Nat) (h : n < 16) :
    hexChar n ∈ "0123456789abcdef".data := by
  interval_cases n <;> decide

theorem toHex_chars (bytes : List Nat) :
    ∀ c ∈ toHex bytes, c ∈ "0123456789abcdef".data := by
  induction bytes with
  | nil => simp [toHex]
  | cons b t ih =>
    intro c hc
    simp only [toHex, List.flatMap_cons, List.mem_append] at hc
    rcases hc with hc | hc
    · rcases List.mem_cons.mp hc with rfl | hc
      · exact hexChar_mem _ (Nat.mod_lt _ (by norm_num))
      · rcases List.mem_cons.mp hc with rfl | hc
        · exact hexChar_mem _ (Nat.mod_lt _ (by norm_num))
        · simp at hc
    · exact ih c hc

theorem lexLe_trans :
    ∀ {a b c : List Nat}, lexLe a b = true → lexLe b c = true →
      lexLe a c = true
  | [], _, _, _, _ => rfl
  | _ :: _, [], _, h, _ => by simp [lexLe] at h
  | _ :: _, _ :: _, [], _, h => by simp [lexLe] at h
  | x :: xs, y :: ys, z :: zs, h1, h2 => by
    simp only [lexLe] at h1 h2 ⊢
    have hy : x < y ∨ (x = y ∧ lexLe xs ys = true) := by
      rcases Nat.lt_trichotomy x y with h | h | h
      · exact Or.inl h
      · rw [if_neg (by omega), if_neg (by omega)] at h1
        exact Or.inr ⟨h, h1⟩
      · rw [if_neg (by omega), if_pos h] at h1
        simp at h1
    have hz : y < z ∨ (y = z ∧ lexLe ys zs = true) := by
      rcases Nat.lt_trichotomy y z with h | h | h
      · exact Or.inl h
      · rw [if_neg (by omega), if_neg (by omega)] at h2
        exact Or.inr ⟨h, h2⟩
      · rw [if_neg (by omega), if_pos h] at h2
        simp at h2
    rcases hy with hy | ⟨hy, hxs⟩
    · rcases hz with hz | ⟨hz, _⟩
      · rw [if_pos (by omega)]
      · rw [if_pos (by omega)]
    · rcases hz with hz | ⟨hz, hys⟩
      · rw [if_pos (by omega)]
      · rw [if_neg (by omega), if_neg (by omega)]
        exact lexLe_trans hxs hys

theorem lexLe_total :
    ∀ (a b : List Nat), lexLe a b = true ∨ lexLe b a = true
  | [], _ => Or.inl rfl
  | _ :: _, [] => Or.inr rfl
  | x :: xs, y :: ys => by
    simp only [lexLe]
    rcases Nat.lt_trichotomy x y with h | h | h
    · left
      rw [if_pos h]
    · subst h
      simp only [lt_irrefl, if_false]
      exact lexLe_total xs ys
    · right
      rw [if_pos h]

theorem lexLe_antisymm :
    ∀ {a b : List Nat}, lexLe a b = true → lexLe b a = true → a = b
  | [], [], _, _ => rfl
  | [], _ :: _, _, h => by simp [lexLe] at h
  | _ :: _, [], h, _ => by simp [lexLe] at h
  | x :: xs, y :: ys, h1, h2 => by
    simp only [lexLe] at h1 h2
    have hxy : x = y := by
      rcases Nat.lt_trichotomy x y with h | h | h
      · rw [if_neg (by omega), if_pos h] at h2
        simp at h2
      · exact h
      · rw [if_neg (by omega), if_pos h] at h1
        simp at h1
    subst hxy
    rw [if_neg (by omega), if_neg (by omega)] at h1
    rw [if_neg (by omega), if_neg (by omega)] at h2
    rw [lexLe_antisymm h1 h2]

theorem strLe_antisymm {a b : String} (h1 : strLe a b = true)
    (h2 : strLe b a = true) : a = b := by
  unfold strLe at h1 h2
  have hmap := lexLe_antisymm h1 h2
  have hinj : Function.Injective Char.toNat := fun c d h =>
    Char.ofNat_toNat c ▸ Char.ofNat_toNat d ▸ congrArg Char.ofNat h
  exact String.ext (List.map_injective_iff.mpr hinj hmap)

/-- Two sorted permutations of each other with pairwise-distinct keys are
equal (sorting by key alone determines the list when keys are unique). -/
theorem sorted_nodup_keys_eq {β : Type} :
    ∀ (l1 l2 : List (String × β)), l1.Perm l2 →
      List.Sorted byNameLe l1 → List.Sorted byNameLe l2 →
      (l1.map Prod.fst).Nodup → l1 = l2
  | [], l2, hperm, _, _, _ => hperm.nil_eq
  | a :: t1, [], hperm, _, _, _ => absurd hperm.symm.nil_eq (by simp)
  | a :: t1, b :: t2, hperm, hs1, hs2, hnd => by
    have ha := (List.sorted_cons.mp hs1).1
    have hb := (List.sorted_cons.mp hs2).1
    have hab : a = b := by
      have hain : a ∈ b :: t2 := hperm.mem_iff.mp (List.mem_cons_self a t1)
      rcases List.mem_cons.mp hain with h | hain2
      · exact h
      · have hbin : b ∈ a :: t1 :=
          hperm.symm.mem_iff.mp (List.mem_cons_self b t2)
        rcases List.mem_cons.mp hbin with h | hbin2
        · exact h.symm
        · exfalso
          have h1 : strLe a.1 b.1 = true := ha b hbin2
          have h2 : strLe b.1 a.1 = true := hb a hain2
          have hkey : a.1 = b.1 := strLe_antisymm h1 h2
          have : a.1 ∈ t1.map Prod.fst := by
            rw [hkey]
            exact List.mem_map_of_mem Prod.fst hbin2
          simp only [List.map_cons, List.nodup_cons] at hnd
          exact hnd.1 this
    subst hab
    have hnd2 : (t1.map Prod.fst).Nodup := by
      simp only [List.map_cons, List.nodup_cons] at hnd
      exact hnd.2
    have htail := sorted_nodup_keys_eq t1 t2 hperm.cons_inv
      (List.sorted_cons.mp hs1).2 (List.sorted_cons.mp hs2).2 hnd2
    rw [htail]

/-- C1 (amended): for file lists with pairwise-distinct sanitized names,
`_compute_cache_key` is invariant under permutation of the file list (it is
deterministic as a pure function of its arguments), and for every input it
returns a 32-character string of lower-case hex digits. -/
theorem compute_cache_key_props (entries entries' : List (String × List Nat))
    (opts : List (String × String))
    (hnd : (entries.map Prod.fst).Nodup) (hperm : entries'.Perm entries) :
    compute_cache_key entries' opts = compute_cache_key entries opts ∧
    (compute_cache_key entries opts).length = 32 ∧
    ∀ c ∈ (compute_cache_key entries opts).data,
      c ∈ "0123456789abcdef".data := by
  haveI : IsTotal (String × List Nat) byNameLe := ⟨fun x y => lexLe_total _ _⟩
  haveI : IsTrans (String × List Nat) byNameLe :=
    ⟨fun _ _ _ h1 h2 => lexLe_trans h1 h2⟩
  refine ⟨?_, ?_, ?_⟩
  · have hs1 : List.Sorted byNameLe
        (List.insertionSort (@byNameLe (List Nat)) entries') :=
      List.sorted_insertionSort _ _
    have hs2 : List.Sorted byNameLe
        (List.insertionSort (@byNameLe (List Nat)) entries) :=
      List.sorted_insertionSort _ _
    have hp : (List.insertionSort (@byNameLe (List Nat)) entries').Perm
        (List.insertionSort (@byNameLe (List Nat)) entries) :=
      ((List.perm_insertionSort _ _).trans hperm).trans
        (List.perm_insertionSort _ _).symm
    have hnd' : ((List.insertionSort (@byNameLe (List Nat))
        entries').map Prod.fst).Nodup := by
      refine ((List.perm_insertionSort (@byNameLe (List Nat))
        entries').trans hperm).map Prod.fst |>.symm.nodup ?_
      exact hnd
    have heq := sorted_nodup_keys_eq _ _ hp hs1 hs2 hnd'
    unfold compute_cache_key cacheKeyStream
    rw [heq]
  · unfold compute_cache_key
    show (List.take 32 (toHex (sha256 _))).length = 32
    rw [List.length_take, toHex_length, sha256_length]
    omega
  · intro c hc
    unfold compute_cache_key at hc
    have hc' : c ∈ toHex (sha256 (cacheKeyStream entries opts)) :=
      List.take_subset _ _ hc
    exact toHex_chars _ c hc'

/-- C1 witness: two distinct-name files in both orders give the same key,
32 hex characters long. -/
theorem compute_cache_key_props_witness :
    (([("a", [1]), ("b", [2])] : List (String × List Nat)).map
        Prod.fst).Nodup ∧
    ([("b", [2]), ("a", [1])] : List (String × List Nat)).Perm
        [("a", [1]), ("b", [2])] ∧
    compute_cache_key [("b", [2]), ("a", [1])] [] =
      compute_cache_key [("a", [1]), ("b", [2])] [] ∧
    (compute_cache_key [("a", [1]), ("b", [2])] []).length = 32 := by
  have h := compute_cache_key_props [("a", [1]), ("b", [2])]
    [("b", [2]), ("a", [1])] [] (by decide) (List.Perm.swap _ _ _)
  exact ⟨by decide, List.Perm.swap _ _ _, h.1, h.2.1⟩

/-- C1 counterexample: two files whose sanitized names collide — the sort is
stable, so the two orders feed different byte streams to the digest and the
key is not invariant under permutation. -/
theorem compute_cache_key_not_perm_invariant :
    ¬(compute_cache_key [("a", [0]), ("a", [1])] [] =
      compute_cache_key [("a", [1]), ("a", [0])] []) := by
  decide

/-! ### JSON repair (C7)

`_repair_truncated_json` scans the text with a bracket/string automaton.
To state what it guarantees on truncated JSON we embed the scanner, a JSON
document type `J` with its serialization `ser` (`json.dumps` conventions:
separators `", "` and `": "`, `\"` and `\\` escapes, integer numbers), and
a parser `jsonParse` modelling `json.loads`. -/

/-- JSON documents.  Numbers carry their serialized digits (integer
grammar); strings carry their unescaped character content. -/
inductive J where
  | null
  | jtrue
  | jfalse
  | num (neg : Bool) (digits : List Char)
  | str (s : List Char)
  | arr (xs : List J)
  | obj (xs : List (List Char × J))

/-- `json.dumps` escaping of one string character. -/
def escChar (c : Char) : List Char :=
  if c = '"' ∨ c = '\\' then ['\\', c] else [c]

/-- Serialized string literal. -/
def serStr (s : List Char) : List Char :=
  '"' :: s.flatMap escChar ++ ['"']

mutual

/-- `json.dumps` with its default separators. -/
def ser : J → List Char
  | .null => ['n', 'u', 'l', 'l']
  | .jtrue => ['t', 'r', 'u', 'e']
  | .jfalse => ['f', 'a', 'l', 's', 'e']
  | .num neg ds => (if neg then ['-'] else []) ++ ds
  | .str s => serStr s
  | .arr xs => '[' :: serElems xs ++ [']']
  | .obj xs => '\x7b' :: serMembers xs ++ ['\x7d']

/-- Array elements, `", "` separated. -/
def serElems : List J → List Char
  | [] => []
  | [x] => ser x
  | x :: xs => ser x ++ [',', ' '] ++ serElems xs

/-- Object members, `", "` separated, `": "` after each key. -/
def serMembers : List (List Char × J) → List Char
  | [] => []
  | [kv] => serStr kv.1 ++ [':', ' '] ++ ser kv.2
  | kv :: xs => serStr kv.1 ++ [':', ' '] ++ ser kv.2 ++ [',', ' '] ++ serMembers xs

end

/-- A well-formed string character: not a raw control character (those must
be `\uXXXX`-escaped, which the serializer does not emit). -/
def wfChar (c : Char) : Bool := 0x20 ≤ c.toNat

/-- Well-formed integer number digits: nonempty, all digits, no leading
zero except `"0"` itself. -/
def wfDigits (ds : List Char) : Bool :=
  match ds with
  | [] => false
  | ['0'] => true
  | d :: _ => d.isDigit ∧ ¬(d = '0') ∧ ds.all Char.isDigit

mutual

/-- Well-formed documents: serializing one yields valid JSON. -/
def wfJ : J → Bool
  | .null => true
  | .jtrue => true
  | .jfalse => true
  | .num _ ds => wfDigits ds
  | .str s => s.all wfChar
  | .arr xs => wfElems xs
  | .obj xs => wfMembers xs

def wfElems : List J → Bool
  | [] => true
  | x :: xs => wfJ x && wfElems xs

def wfMembers : List (List Char × J) → Bool
  | [] => true
  | kv :: xs => kv.1.all wfChar && wfJ kv.2 && wfMembers xs

end

/-- Is the document an object or array (its serialization starts with a
structural bracket)? -/
def isContainer : J → Bool
  | .arr _ => true
  | .obj _ => true
  | _ => false

/-- Closing brackets for a stack of openers (innermost first; Python keeps
the list outermost first and iterates it reversed, which is the same). -/
def closeChars (stack : List Char) : List Char :=
  stack.map fun op => if op = '\x7b' then '\x7d' else ']'

/-- The scan loop of `_repair_truncated_json`.  `stack` is innermost-first;
`acc` is `text[start_idx : idx]`, so Python's `last_safe` index/stack pair
is modelled as the slice `text[start_idx : idx + 1]` with the stack copy. -/
def repairLoop (stack : List Char) (inString : Option Char) (escape : Bool)
    (lastSafe : Option (List Char × List Char)) (acc : List Char) :
    List Char → Option (List Char)
  | [] =>
    match lastSafe with
    | Option.none => Option.none
    | some (u, remaining) => some (u ++ closeChars remaining)
  | ch :: rest =>
    match inString with
    | some q =>
      if escape then repairLoop stack inString false lastSafe (acc ++ [ch]) rest
      else if ch = '\\' then
        repairLoop stack inString true lastSafe (acc ++ [ch]) rest
      else if ch = q then repairLoop stack Option.none false lastSafe (acc ++ [ch]) rest
      else repairLoop stack inString false lastSafe (acc ++ [ch]) rest
    | Option.none =>
      if ch = '"' ∨ ch = '\'' then
        repairLoop stack (some ch) false lastSafe (acc ++ [ch]) rest
      else if ch = '\x7b' ∨ ch = '[' then
        repairLoop (ch :: stack) Option.none false lastSafe (acc ++ [ch]) rest
      else if ch = '\x7d' ∨ ch = ']' then
        match stack with
        | [] => repairLoop [] Option.none false lastSafe (acc ++ [ch]) rest
        | op :: stack2 =>
          if (op = '\x7b' ∧ ¬(ch = '\x7d')) ∨ (op = '[' ∧ ¬(ch = ']')) then
            Option.none
          else if stack2 = [] then some (acc ++ [ch])
          else if ch = '\x7d' then
            repairLoop stack2 Option.none false (some (acc ++ [ch], stack2))
              (acc ++ [ch]) rest
          else repairLoop stack2 Option.none false lastSafe (acc ++ [ch]) rest
      else repairLoop stack Option.none false lastSafe (acc ++ [ch]) rest

/-- `_repair_truncated_json`: find the first `{` or `[`, scan from there. -/
def repair_truncated_json (text : List Char) : Option (List Char) :=
  let tail := text.dropWhile fun c => ¬(c = '\x7b' ∨ c = '[')
  if tail.isEmpty then Option.none
  else repairLoop [] Option.none false Option.none [] tail

/-- JSON insignificant whitespace. -/
def isJsonWs (c : Char) : Bool :=
  c = ' ' ∨ c = '\t' ∨ c = '\n' ∨ c = '\r'

/-- Skip insignificant whitespace. -/
def skipWs (l : List Char) : List Char :=
  l.dropWhile isJsonWs

/-- Parse the rest of a string literal after the opening quote: content
characters (no raw control characters — `json.loads` is strict) and the
serializer's `\"`/`\\` escapes, up to the closing quote.  Returns the
unescaped content and the remaining input. -/
def parseStringRest : List Char → Option (List Char × List Char)
  | [] => Option.none
  | c :: rest =>
    if c = '"' then some ([], rest)
    else if c = '\\' then
      match rest with
      | [] => Option.none
      | e :: rest2 =>
        if e = '"' ∨ e = '\\' then
          (parseStringRest rest2).map fun sr => (e :: sr.1, sr.2)
        else Option.none
    else if wfChar c then
      (parseStringRest rest).map fun sr => (c :: sr.1, sr.2)
    else Option.none

mutual

/-- Recursive-descent JSON value parser (fuel-indexed; integer numbers,
as in the document grammar `J`).  Returns the value and remaining input. -/
def parseValue : Nat → List Char → Option (J × List Char)
  | 0, _ => Option.none
  | f + 1, input =>
    match skipWs input with
    | [] => Option.none
    | c :: rest =>
      if c = 'n' then
        match rest with
        | 'u' :: 'l' :: 'l' :: r => some (.null, r)
        | _ => Option.none
      else if c = 't' then
        match rest with
        | 'r' :: 'u' :: 'e' :: r => some (.jtrue, r)
        | _ => Option.none
      else if c = 'f' then
        match rest with
        | 'a' :: 'l' :: 's' :: 'e' :: r => some (.jfalse, r)
        | _ => Option.none
      else if c = '"' then
        (parseStringRest rest).map fun sr => (.str sr.1, sr.2)
      else if c = '-' then
        let ds := rest.takeWhile Char.isDigit
        if wfDigits ds then some (.num true ds, rest.dropWhile Char.isDigit)
        else Option.none
      else if c.isDigit then
        let ds := (c :: rest).takeWhile Char.isDigit
        if wfDigits ds then
          some (.num false ds, (c :: rest).dropWhile Char.isDigit)
        else Option.none
      else if c = '[' then
        match skipWs rest with
        | ']' :: r => some (.arr [], r)
        | _ => (parseElems f rest).map fun xr => (.arr xr.1, xr.2)
      else if c = '\x7b' then
        match skipWs rest with
        | '\x7d' :: r => some (.obj [], r)
        | _ => (parseMembers f rest).map fun xr => (.obj xr.1, xr.2)
      else Option.none

/-- Parse one or more array elements and the closing `]`. -/
def parseElems : Nat → List Char → Option (List J × List Char)
  | 0, _ => Option.none
  | f + 1, input =>
    match parseValue f input with
    | Option.none => Option.none
    | some (v, r) =>
      match skipWs r with
      | ',' :: r2 => (parseElems f r2).map fun xr => (v :: xr.1, xr.2)
      | ']' :: r2 => some ([v], r2)
      | _ => Option.none

/-- Parse one or more object members and the closing `}`. -/
def parseMembers : Nat → List Char →
    Option (List (List Char × J) × List Char)
  | 0, _ => Option.none
  | f + 1, input =>
    match skipWs input with
    | '"' :: r =>
      match parseStringRest r with
      | Option.none => Option.none
      | some (k, r2) =>
        match skipWs r2 with
        | ':' :: r3 =>
          match parseValue f r3 with
          | Option.none => Option.none
          | some (v, r4) =>
            match skipWs r4 with
            | ',' :: r5 =>
              (parseMembers f r5).map fun xr => ((k, v) :: xr.1, xr.2)
            | '\x7d' :: r5 => some ([(k, v)], r5)
            | _ => Option.none
        | _ => Option.none
    | _ => Option.none

end

/-- `json.loads` model: parse a value and require only whitespace after it.
(The number grammar is restricted to integers, like the documents at
hand.) -/
def jsonParse (text : List Char) : Option J :=
  match parseValue (text.length + 1) text with
  | some (v, r) => if (skipWs r).isEmpty then some v else Option.none
  | Option.none => Option.none

mutual

/-- Fuel measure for the parser. -/
def sizeJ : J → Nat
  | .null => 1
  | .jtrue => 1
  | .jfalse => 1
  | .num _ _ => 1
  | .str _ => 1
  | .arr xs => sizeElems xs + 1
  | .obj xs => sizeMembers xs + 1

def sizeElems : List J → Nat
  | [] => 0
  | x :: xs => sizeJ x + sizeElems xs + 1

def sizeMembers : List (List Char × J) → Nat
  | [] => 0
  | kv :: xs => sizeJ kv.2 + sizeMembers xs + 1

end

theorem sizeJ_pos (v : J) : 1 ≤ sizeJ v := by
  cases v <;> simp [sizeJ]

/-- No digit ahead (so number parsing stops exactly at a boundary). -/
def SepOk (rest : List Char) : Prop :=
  ∀ c, rest.head? = some c → c.isDigit = false

theorem sepOk_nil : SepOk [] := fun c h => by simp at h

theorem sepOk_cons {c : Char} (h : c.isDigit = false) (l : List Char) :
    SepOk (c :: l) := by
  intro d hd
  simp only [List.head?_cons, Option.some.injEq] at hd
  subst hd
  exact h

theorem skipWs_cons_nonws {c : Char} (h : isJsonWs c = false)
    (l : List Char) : skipWs (c :: l) = c :: l := by
  simp [skipWs, List.dropWhile_cons, h]

theorem skipWs_cons_ws {c : Char} (h : isJsonWs c = true) (l : List Char) :
    skipWs (c :: l) = skipWs l := by
  simp [skipWs, List.dropWhile_cons, h]

theorem takeWhile_digits_append {ds rest : List Char}
    (hds : ds.all Char.isDigit = true) (hrest : SepOk rest) :
    (ds ++ rest).takeWhile Char.isDigit = ds ∧
    (ds ++ rest).dropWhile Char.isDigit = rest := by
  induction ds with
  | nil =>
    simp only [List.nil_append]
    cases rest with
    | nil => simp
    | cons c r =>
      have := hrest c (by simp)
      simp [List.takeWhile_cons, List.dropWhile_cons, this]
  | cons d ds ih =>
    simp only [List.all_cons, Bool.and_eq_true] at hds
    obtain ⟨h1, h2⟩ := ih hds.2
    simp [List.takeWhile_cons, List.dropWhile_cons, hds.1, h1, h2]

theorem digit_ne {c d : Char} (hc : c.isDigit = true)
    (hd : d.isDigit = false) : ¬(c = d) := by
  intro h
  subst h
  rw [hc] at hd
  exact absurd hd (by simp)

theorem parseStringRest_roundtrip :
    ∀ (s rest : List Char), s.all wfChar = true →
      parseStringRest (s.flatMap escChar ++ '"' :: rest) = some (s, rest) := by
  intro s
  induction s with
  | nil =>
    intro rest _
    rw [parseStringRest.eq_def]
    simp
  | cons c s ih =>
    intro rest hwf
    simp only [List.all_cons, Bool.and_eq_true] at hwf
    by_cases hc : c = '"' ∨ c = '\\'
    · simp only [List.flatMap_cons, escChar, hc, if_true, List.cons_append,
        List.append_assoc]
      rw [parseStringRest.eq_def]
      dsimp only [List.nil_append]
      rw [if_neg (by simp), if_pos rfl]
      have := ih rest hwf.2
      simp only [List.append_assoc] at this
      simp [hc, this]
    · have hq : ¬(c = '"') := fun h => hc (Or.inl h)
      have hb : ¬(c = '\\') := fun h => hc (Or.inr h)
      simp only [List.flatMap_cons, escChar, hc, if_false, List.cons_append,
        List.singleton_append, List.append_assoc]
      rw [parseStringRest.eq_def]
      dsimp only [List.nil_append]
      rw [if_neg hq, if_neg hb, if_pos hwf.1]
      have := ih rest hwf.2
      simp only [List.append_assoc] at this
      simp [this]

theorem wfDigits_head {ds : List Char} (h : wfDigits ds = true) :
    ∃ d tail, ds = d :: tail ∧ d.isDigit = true := by
  cases ds with
  | nil => simp [wfDigits] at h
  | cons d tail =>
    refine ⟨d, tail, rfl, ?_⟩
    cases tail with
    | nil =>
      by_cases hd : d = '0'
      · subst hd; decide
      · simp [wfDigits, hd] at h
        exact h
    | cons e t =>
      simp [wfDigits] at h
      exact h.1

theorem wfDigits_all {ds : List Char} (h : wfDigits ds = true) :
    ds.all Char.isDigit = true := by
  cases ds with
  | nil => simp [wfDigits] at h
  | cons d tail =>
    cases tail with
    | nil =>
      by_cases hd : d = '0'
      · subst hd; decide
      · simp [wfDigits, hd] at h
        simp [h]
    | cons e t =>
      simp [wfDigits] at h
      simp [h.1, h.2.2.2.1]
      exact h.2.2.2.2

theorem digit_not_ws {d : Char} (h : d.isDigit = true) :
    isJsonWs d = false := by
  by_cases hw : isJsonWs d = true
  · exfalso
    have hcases : d = ' ' ∨ d = '\t' ∨ d = '\n' ∨ d = '\r' := by
      simpa [isJsonWs] using hw
    rcases hcases with rfl | rfl | rfl | rfl <;> simp at h
  · exact Bool.eq_false_iff.mpr hw

/-- The first character of a serialized well-formed value: never
whitespace, never a closing bracket. -/
theorem ser_head (v : J) (hwf : wfJ v = true) :
    ∃ c cs, ser v = c :: cs ∧ isJsonWs c = false ∧ ¬(c = ']') ∧
      ¬(c = '\x7d') := by
  cases v with
  | null => exact ⟨'n', _, rfl, by decide, by decide, by decide⟩
  | jtrue => exact ⟨'t', _, rfl, by decide, by decide, by decide⟩
  | jfalse => exact ⟨'f', _, rfl, by decide, by decide, by decide⟩
  | str s => refine ⟨'"', _, rfl, ?_, ?_, ?_⟩ <;> decide
  | arr xs => exact ⟨'[', _, rfl, by decide, by decide, by decide⟩
  | obj xs => exact ⟨'\x7b', _, rfl, by decide, by decide, by decide⟩
  | num neg ds =>
    simp only [wfJ] at hwf
    obtain ⟨d, tail, rfl, hd⟩ := wfDigits_head hwf
    cases neg with
    | true => exact ⟨'-', _, rfl, by decide, by decide, by decide⟩
    | false =>
      refine ⟨d, tail, by simp [ser], digit_not_ws hd, ?_, ?_⟩
      · exact digit_ne hd (by decide)
      · exact digit_ne hd (by decide)

theorem parseValue_ws (f : Nat) {c : Char} (h : isJsonWs c = true)
    (input : List Char) : parseValue f (c :: input) = parseValue f input := by
  cases f with
  | zero => rfl
  | succ f => rw [parseValue, parseValue, skipWs_cons_ws h]

theorem parseElems_ws (f : Nat) {c : Char} (h : isJsonWs c = true)
    (input : List Char) : parseElems f (c :: input) = parseElems f input := by
  cases f with
  | zero => rfl
  | succ f => rw [parseElems, parseElems, parseValue_ws f h]

theorem parseMembers_ws (f : Nat) {c : Char} (h : isJsonWs c = true)
    (input : List Char) :
    parseMembers f (c :: input) = parseMembers f input := by
  cases f with
  | zero => rfl
  | succ f => rw [parseMembers, parseMembers, skipWs_cons_ws h]

theorem serElems_cons_ex (x : J) (t : List J) :
    ∃ u, serElems (x :: t) = ser x ++ u := by
  cases t with
  | nil => exact ⟨[], by simp [serElems]⟩
  | cons y t2 => exact ⟨[',', ' '] ++ serElems (y :: t2), by simp [serElems]⟩

theorem serMembers_cons_ex (kv : List Char × J) (t : List (List Char × J)) :
    ∃ u, serMembers (kv :: t) = '"' :: u := by
  cases t with
  | nil =>
    refine ⟨kv.1.flatMap escChar ++ '"' :: ':' :: ' ' :: ser kv.2, ?_⟩
    simp [serMembers, serStr]
  | cons kv2 t2 =>
    refine ⟨kv.1.flatMap escChar ++ '"' :: ':' :: ' ' :: (ser kv.2 ++
      ',' :: ' ' :: serMembers (kv2 :: t2)), ?_⟩
    simp [serMembers, serStr]

/-- Parser–serializer round trip, by induction on the parser fuel. -/
theorem parse_roundtrip : ∀ f : Nat,
    (∀ v rest, wfJ v = true → sizeJ v ≤ f → SepOk rest →
      parseValue f (ser v ++ rest) = some (v, rest)) ∧
    (∀ xs rest, wfElems xs = true → ¬(xs = []) → sizeElems xs ≤ f →
      parseElems f (serElems xs ++ ']' :: rest) = some (xs, rest)) ∧
    (∀ ms rest, wfMembers ms = true → ¬(ms = []) → sizeMembers ms ≤ f →
      parseMembers f (serMembers ms ++ '\x7d' :: rest) = some (ms, rest)) := by
  intro f
  induction f with
  | zero =>
    refine ⟨?_, ?_, ?_⟩
    · intro v _ _ hs _
      have := sizeJ_pos v
      omega
    · intro xs _ _ hne hs
      cases xs with
      | nil => exact absurd rfl hne
      | cons x t =>
        have := sizeJ_pos x
        simp [sizeElems] at hs
    · intro ms _ _ hne hs
      cases ms with
      | nil => exact absurd rfl hne
      | cons kv t =>
        have := sizeJ_pos kv.2
        simp [sizeMembers] at hs
  | succ f ih =>
    obtain ⟨ihV, ihE, ihM⟩ := ih
    refine ⟨?_, ?_, ?_⟩
    · intro v rest hwf hsz hsep
      cases v with
      | null =>
        show parseValue (f + 1) ('n' :: 'u' :: 'l' :: 'l' :: rest) = _
        rw [parseValue, skipWs_cons_nonws (by decide)]
        rfl
      | jtrue =>
        show parseValue (f + 1) ('t' :: 'r' :: 'u' :: 'e' :: rest) = _
        rw [parseValue, skipWs_cons_nonws (by decide)]
        rfl
      | jfalse =>
        show parseValue (f + 1) ('f' :: 'a' :: 'l' :: 's' :: 'e' :: rest) = _
        rw [parseValue, skipWs_cons_nonws (by decide)]
        rfl
      | str s =>
        simp only [wfJ] at hwf
        show parseValue (f + 1)
          (('"' :: (s.flatMap escChar ++ ['"'])) ++ rest) = _
        rw [List.cons_append, parseValue, skipWs_cons_nonws (by decide)]
        dsimp only
        rw [if_neg (by decide), if_neg (by decide), if_neg (by decide),
          if_pos rfl]
        rw [List.append_assoc, List.singleton_append]
        rw [parseStringRest_roundtrip s rest hwf]
        rfl
      | num neg ds =>
        simp only [wfJ] at hwf
        have hall := wfDigits_all hwf
        obtain ⟨d, tail, hds, hd⟩ := wfDigits_head hwf
        cases neg with
        | true =>
          show parseValue (f + 1) (('-' :: ds) ++ rest) = _
          rw [List.cons_append, parseValue, skipWs_cons_nonws (by decide)]
          dsimp only
          rw [if_neg (by decide), if_neg (by decide), if_neg (by decide),
            if_neg (by decide), if_pos rfl]
          obtain ⟨htw, hdw⟩ := takeWhile_digits_append hall hsep
          rw [htw, hdw, if_pos hwf]
        | false =>
          have hser : ser (J.num false ds) ++ rest = d :: (tail ++ rest) := by
            simp [ser, hds]
          rw [hser, parseValue, skipWs_cons_nonws (digit_not_ws hd)]
          dsimp only
          rw [if_neg (digit_ne hd (by decide)),
            if_neg (digit_ne hd (by decide)),
            if_neg (digit_ne hd (by decide)),
            if_neg (digit_ne hd (by decide)),
            if_neg (digit_ne hd (by decide)), if_pos hd]
          have hcons : d :: (tail ++ rest) = ds ++ rest := by
            rw [hds, List.cons_append]
          rw [hcons]
          obtain ⟨htw, hdw⟩ := takeWhile_digits_append hall hsep
          rw [htw, hdw, if_pos hwf, hds]
      | arr xs =>
        simp only [wfJ] at hwf
        cases xs with
        | nil =>
          show parseValue (f + 1) ('[' :: ']' :: rest) = _
          rw [parseValue, skipWs_cons_nonws (by decide)]
          dsimp only
          rw [if_neg (by decide), if_neg (by decide), if_neg (by decide),
            if_neg (by decide), if_neg (by decide), if_neg (by decide),
            if_pos rfl, skipWs_cons_nonws (by decide)]
          rfl
        | cons x t =>
          have hser : ser (J.arr (x :: t)) ++ rest =
              '[' :: (serElems (x :: t) ++ ']' :: rest) := by
            simp [ser]
          rw [hser, parseValue, skipWs_cons_nonws (by decide)]
          dsimp only
          rw [if_neg (by decide), if_neg (by decide), if_neg (by decide),
            if_neg (by decide), if_neg (by decide), if_neg (by decide),
            if_pos rfl]
          have hwx : wfJ x = true := by
            simp only [wfElems, Bool.and_eq_true] at hwf
            exact hwf.1
          have hE := ihE (x :: t) rest hwf (by simp)
            (by simp only [sizeJ] at hsz; omega)
          obtain ⟨u, hu⟩ := serElems_cons_ex x t
          obtain ⟨c0, cs0, hc0, hc0w, hc0b, _⟩ := ser_head x hwx
          have hcons : serElems (x :: t) ++ ']' :: rest =
              c0 :: (cs0 ++ (u ++ ']' :: rest)) := by
            rw [hu, hc0]
            simp
          rw [hcons] at hE ⊢
          rw [skipWs_cons_nonws hc0w]
          split
          next r heq =>
            exact absurd (List.head_eq_of_cons_eq heq) hc0b
          next =>
            rw [hE]
            rfl
      | obj xs =>
        simp only [wfJ] at hwf
        cases xs with
        | nil =>
          show parseValue (f + 1) ('\x7b' :: '\x7d' :: rest) = _
          rw [parseValue, skipWs_cons_nonws (by decide)]
          dsimp only
          rw [if_neg (by decide), if_neg (by decide), if_neg (by decide),
            if_neg (by decide), if_neg (by decide), if_neg (by decide),
            if_neg (by decide), if_pos rfl, skipWs_cons_nonws (by decide)]
          rfl
        | cons kv t =>
          have hser : ser (J.obj (kv :: t)) ++ rest =
              '\x7b' :: (serMembers (kv :: t) ++ '\x7d' :: rest) := by
            simp [ser]
          rw [hser, parseValue, skipWs_cons_nonws (by decide)]
          dsimp only
          rw [if_neg (by decide), if_neg (by decide), if_neg (by decide),
            if_neg (by decide), if_neg (by decide), if_neg (by decide),
            if_neg (by decide), if_pos rfl]
          have hM := ihM (kv :: t) rest hwf (by simp)
            (by simp only [sizeJ] at hsz; omega)
          obtain ⟨u, hu⟩ := serMembers_cons_ex kv t
          have hcons : serMembers (kv :: t) ++ '\x7d' :: rest =
              '"' :: (u ++ '\x7d' :: rest) := by
            rw [hu]
            simp
          rw [hcons] at hM ⊢
          rw [skipWs_cons_nonws (by decide)]
          split
          next r heq =>
            exact absurd (List.head_eq_of_cons_eq heq) (by decide)
          next =>
            rw [hM]
            rfl
    · intro xs rest hwf hne hsz
      cases xs with
      | nil => exact absurd rfl hne
      | cons x t =>
        simp only [wfElems, Bool.and_eq_true] at hwf
        cases t with
        | nil =>
          have hx : sizeJ x ≤ f := by
            simp only [sizeElems] at hsz
            omega
          have hone : serElems [x] ++ ']' :: rest = ser x ++ ']' :: rest := by
            simp [serElems]
          rw [parseElems, hone,
            ihV x (']' :: rest) hwf.1 hx (sepOk_cons (by decide) rest)]
          dsimp only
          rw [skipWs_cons_nonws (by decide)]
          rfl
        | cons y t2 =>
          have hx : sizeJ x ≤ f := by
            simp only [sizeElems] at hsz
            omega
          have ht : sizeElems (y :: t2) ≤ f := by
            simp only [sizeElems] at hsz ⊢
            omega
          have hser2 : serElems (x :: y :: t2) ++ ']' :: rest =
              ser x ++ (',' :: ' ' :: (serElems (y :: t2) ++ ']' :: rest)) := by
            simp [serElems]
          rw [parseElems, hser2,
            ihV x _ hwf.1 hx (sepOk_cons (by decide) _)]
          dsimp only
          rw [skipWs_cons_nonws (by decide)]
          show (parseElems f
              (' ' :: (serElems (y :: t2) ++ ']' :: rest))).map
              (fun xr => (x :: xr.1, xr.2)) = _
          rw [parseElems_ws f (by decide),
            ihE (y :: t2) rest hwf.2 (by simp) ht]
          rfl
    · intro ms rest hwf hne hsz
      cases ms with
      | nil => exact absurd rfl hne
      | cons kv t =>
        simp only [wfMembers, Bool.and_eq_true] at hwf
        cases t with
        | nil =>
          have hv : sizeJ kv.2 ≤ f := by
            simp only [sizeMembers] at hsz
            omega
          have hserM : serMembers [kv] ++ '\x7d' :: rest =
              '"' :: (kv.1.flatMap escChar ++
                '"' :: ':' :: ' ' :: (ser kv.2 ++ '\x7d' :: rest)) := by
            simp [serMembers, serStr]
          rw [parseMembers, hserM, skipWs_cons_nonws (by decide)]
          show (match parseStringRest (kv.1.flatMap escChar ++
              '"' :: ':' :: ' ' :: (ser kv.2 ++ '\x7d' :: rest)) with
            | Option.none => Option.none
            | some (k, r2) =>
              match skipWs r2 with
              | ':' :: r3 =>
                match parseValue f r3 with
                | Option.none => Option.none
                | some (v, r4) =>
                  match skipWs r4 with
                  | ',' :: r5 =>
                    (parseMembers f r5).map fun xr => ((k, v) :: xr.1, xr.2)
                  | '\x7d' :: r5 => some ([(k, v)], r5)
                  | _ => Option.none
              | _ => Option.none) = some ([kv], rest)
          rw [parseStringRest_roundtrip kv.1 _ hwf.1.1]
          dsimp only
          rw [skipWs_cons_nonws (by decide)]
          show (match parseValue f (' ' :: (ser kv.2 ++ '\x7d' :: rest)) with
            | Option.none => Option.none
            | some (v, r4) =>
              match skipWs r4 with
              | ',' :: r5 =>
                (parseMembers f r5).map fun xr => ((kv.1, v) :: xr.1, xr.2)
              | '\x7d' :: r5 => some ([(kv.1, v)], r5)
              | _ => Option.none) = some ([kv], rest)
          rw [parseValue_ws f (by decide),
            ihV kv.2 ('\x7d' :: rest) hwf.1.2 hv (sepOk_cons (by decide) rest)]
          dsimp only
          rw [skipWs_cons_nonws (by decide)]
          rfl
        | cons kv2 t2 =>
          have hv : sizeJ kv.2 ≤ f := by
            simp only [sizeMembers] at hsz
            omega
          have ht : sizeMembers (kv2 :: t2) ≤ f := by
            simp only [sizeMembers] at hsz ⊢
            omega
          have hserM : serMembers (kv :: kv2 :: t2) ++ '\x7d' :: rest =
              '"' :: (kv.1.flatMap escChar ++
                '"' :: ':' :: ' ' :: (ser kv.2 ++
                  ',' :: ' ' :: (serMembers (kv2 :: t2) ++
                    '\x7d' :: rest))) := by
            simp [serMembers, serStr]
          rw [parseMembers, hserM, skipWs_cons_nonws (by decide)]
          show (match parseStringRest (kv.1.flatMap escChar ++
              '"' :: ':' :: ' ' :: (ser kv.2 ++
                ',' :: ' ' :: (serMembers (kv2 :: t2) ++
                  '\x7d' :: rest))) with
            | Option.none => Option.none
            | some (k, r2) =>
              match skipWs r2 with
              | ':' :: r3 =>
                match parseValue f r3 with
                | Option.none => Option.none
                | some (v, r4) =>
                  match skipWs r4 with
                  | ',' :: r5 =>
                    (parseMembers f r5).map fun xr => ((k, v) :: xr.1, xr.2)
                  | '\x7d' :: r5 => some ([(k, v)], r5)
                  | _ => Option.none
              | _ => Option.none) = some (kv :: kv2 :: t2, rest)
          rw [parseStringRest_roundtrip kv.1 _ hwf.1.1]
          dsimp only
          rw [skipWs_cons_nonws (by decide)]
          show (match parseValue f (' ' :: (ser kv.2 ++
              ',' :: ' ' :: (serMembers (kv2 :: t2) ++ '\x7d' :: rest))) with
            | Option.none => Option.none
            | some (v, r4) =>
              match skipWs r4 with
              | ',' :: r5 =>
                (parseMembers f r5).map fun xr => ((kv.1, v) :: xr.1, xr.2)
              | '\x7d' :: r5 => some ([(kv.1, v)], r5)
              | _ => Option.none) = some (kv :: kv2 :: t2, rest)
          rw [parseValue_ws f (by decide),
            ihV kv.2 _ hwf.1.2 hv (sepOk_cons (by decide) _)]
          dsimp only
          rw [skipWs_cons_nonws (by decide)]
          show (parseMembers f
              (' ' :: (serMembers (kv2 :: t2) ++ '\x7d' :: rest))).map
              (fun xr => (kv :: xr.1, xr.2)) = _
          rw [parseMembers_ws f (by decide),
            ihM (kv2 :: t2) rest hwf.2 (by simp) ht]
          rfl

/-- The fuel measure is bounded by the serialized length (plus one for the
element/member counts). -/
theorem size_le_serLen : ∀ n : Nat,
    (∀ v, sizeJ v ≤ n → wfJ v = true → sizeJ v ≤ (ser v).length) ∧
    (∀ xs, sizeElems xs ≤ n → wfElems xs = true →
      sizeElems xs ≤ (serElems xs).length + 1) ∧
    (∀ ms, sizeMembers ms ≤ n → wfMembers ms = true →
      sizeMembers ms ≤ (serMembers ms).length + 1) := by
  intro n
  induction n with
  | zero =>
    refine ⟨?_, ?_, ?_⟩
    · intro v hs _
      have := sizeJ_pos v
      omega
    · intro xs hs _
      cases xs with
      | nil => simp [sizeElems, serElems]
      | cons x t =>
        have := sizeJ_pos x
        simp only [sizeElems] at hs
        omega
    · intro ms hs _
      cases ms with
      | nil => simp [sizeMembers, serMembers]
      | cons kv t =>
        have := sizeJ_pos kv.2
        simp only [sizeMembers] at hs
        omega
  | succ n ih =>
    obtain ⟨ihV, ihE, ihM⟩ := ih
    refine ⟨?_, ?_, ?_⟩
    · intro v hs hwf
      cases v with
      | null => simp [sizeJ, ser]
      | jtrue => simp [sizeJ, ser]
      | jfalse => simp [sizeJ, ser]
      | str s => simp [sizeJ, ser, serStr]
      | num neg ds =>
        simp only [wfJ] at hwf
        obtain ⟨d, tail, rfl, _⟩ := wfDigits_head hwf
        cases neg <;> simp [sizeJ, ser]
      | arr xs =>
        simp only [wfJ] at hwf
        simp only [sizeJ] at hs ⊢
        have := ihE xs (by omega) hwf
        simp only [ser, List.length_cons, List.length_append]
        omega
      | obj xs =>
        simp only [wfJ] at hwf
        simp only [sizeJ] at hs ⊢
        have := ihM xs (by omega) hwf
        simp only [ser, List.length_cons, List.length_append]
        omega
    · intro xs hs hwf
      cases xs with
      | nil => simp [sizeElems, serElems]
      | cons x t =>
        simp only [wfElems, Bool.and_eq_true] at hwf
        simp only [sizeElems] at hs ⊢
        have hx := ihV x (by omega) hwf.1
        cases t with
        | nil =>
          simp only [serElems, sizeElems]
          omega
        | cons y t2 =>
          have ht := ihE (y :: t2) (by simp only [sizeElems] at hs ⊢; omega)
            hwf.2
          simp only [serElems, List.length_append, List.length_cons,
            List.length_nil]
          simp only [sizeElems] at ht ⊢
          omega
    · intro ms hs hwf
      cases ms with
      | nil => simp [sizeMembers, serMembers]
      | cons kv t =>
        simp only [wfMembers, Bool.and_eq_true] at hwf
        simp only [sizeMembers] at hs ⊢
        have hx := ihV kv.2 (by omega) hwf.1.2
        cases t with
        | nil =>
          have hk : 1 ≤ (serStr kv.1).length := by simp [serStr]
          simp only [serMembers, sizeMembers, List.length_append,
            List.length_cons, List.length_nil]
          omega
        | cons kv2 t2 =>
          have ht := ihM (kv2 :: t2)
            (by simp only [sizeMembers] at hs ⊢; omega) hwf.2
          simp only [serMembers, List.length_append, List.length_cons,
            List.length_nil]
          simp only [sizeMembers] at ht ⊢
          omega

/-- `json.loads` inverts the serializer on well-formed documents. -/
theorem jsonParse_ser (v : J) (hwf : wfJ v = true) :
    jsonParse (ser v) = some v := by
  have hsz : sizeJ v ≤ (ser v).length + 1 := by
    have := (size_le_serLen (sizeJ v)).1 v le_rfl hwf
    omega
  have h := (parse_roundtrip ((ser v).length + 1)).1 v [] hwf hsz sepOk_nil
  rw [List.append_nil] at h
  rw [jsonParse, h]
  rfl

/-- Characters that the scanner treats generically outside strings: not a
quote, not an opening bracket, not a closing bracket. -/
def plainChar (c : Char) : Bool :=
  ¬(c = '"' ∨ c = '\'' ∨ c = '\x7b' ∨ c = '[' ∨ c = '\x7d' ∨ c = ']')

/-- One open container the scanner is inside, with the parts already fully
scanned (and, for an object, the current member's key). -/
inductive Frame where
  | arrF (done : List J)
  | objF (done : List (List Char × J)) (key : List Char)

/-- The bracket the scanner pushed for a frame. -/
def frameOpenChar : Frame → Char
  | .arrF _ => '['
  | .objF _ _ => '\x7b'

/-- The scanner stack corresponding to a context (innermost first). -/
def stackOf (C : List Frame) : List Char := C.map frameOpenChar

/-- Serialized text of already-scanned array elements, each followed by the
`", "` separator. -/
def doneTextA (done : List J) : List Char :=
  done.flatMap fun d => ser d ++ [',', ' ']

/-- Serialized text of already-scanned object members, each followed by the
`", "` separator. -/
def doneTextO (done : List (List Char × J)) : List Char :=
  done.flatMap fun kv => serStr kv.1 ++ ':' :: ' ' :: (ser kv.2 ++ [',', ' '])

/-- Text consumed for a frame: its opening bracket, its scanned parts, and
for an object the current key and `": "`. -/
def frameOpen : Frame → List Char
  | .arrF done => '[' :: doneTextA done
  | .objF done k => '\x7b' :: (doneTextO done ++ serStr k ++ [':', ' '])

/-- All text consumed before the value currently being scanned. -/
def openText : List Frame → List Char
  | [] => []
  | f :: C => openText C ++ frameOpen f

/-- Close one frame around a completed value. -/
def plug : Frame → J → J
  | .arrF done, v => .arr (done ++ [v])
  | .objF done k, v => .obj (done ++ [(k, v)])

/-- Close every open frame around a completed value: the document the
repair produces when it truncates here. -/
def prune : List Frame → J → J
  | [], v => v
  | f :: C, v => prune C (plug f v)

def wfFrame : Frame → Bool
  | .arrF done => wfElems done
  | .objF done k => wfMembers done && k.all wfChar

def wfCtx : List Frame → Bool
  | [] => true
  | f :: C => wfFrame f && wfCtx C

/-- A recorded `last_safe` slice/stack pair closes to the serialization of
some well-formed document. -/
def GoodLS : Option (List Char × List Char) → Prop
  | Option.none => True
  | some (u, st) => ∃ v', wfJ v' = true ∧ u ++ closeChars st = ser v'

/-- The scanner's end-of-input result. -/
def eofRes (ls : Option (List Char × List Char)) : Option (List Char) :=
  match ls with
  | Option.none => Option.none
  | some (u, st) => some (u ++ closeChars st)

/-- A repair result that is either absent or the serialization of a
well-formed document. -/
def GoodRes (res : Option (List Char)) : Prop :=
  res = Option.none ∨ ∃ v', wfJ v' = true ∧ res = some (ser v')

theorem goodRes_eof {ls} (h : GoodLS ls) : GoodRes (eofRes ls) := by
  cases ls with
  | none => exact Or.inl rfl
  | some p =>
    obtain ⟨u, st⟩ := p
    obtain ⟨v', hw, he⟩ := h
    exact Or.inr ⟨v', hw, by simp [eofRes, he]⟩

theorem repairLoop_nil (S : List Char) (inS : Option Char) (esc : Bool)
    (ls : Option (List Char × List Char)) (a : List Char) :
    repairLoop S inS esc ls a [] = eofRes ls := by
  cases ls with
  | none => rfl
  | some p => rfl

theorem stepPlain {ch : Char} (h : plainChar ch = true) (S : List Char)
    (ls : Option (List Char × List Char)) (a rest : List Char) :
    repairLoop S Option.none false ls a (ch :: rest) =
    repairLoop S Option.none false ls (a ++ [ch]) rest := by
  simp only [plainChar, decide_eq_true_eq, not_or] at h
  obtain ⟨h1, h2, h3, h4, h5, h6⟩ := h
  rw [repairLoop.eq_def]
  dsimp only
  rw [if_neg (by tauto), if_neg (by tauto), if_neg (by tauto)]

theorem stepOpen {ch : Char} (h : ch = '\x7b' ∨ ch = '[') (S : List Char)
    (ls : Option (List Char × List Char)) (a rest : List Char) :
    repairLoop S Option.none false ls a (ch :: rest) =
    repairLoop (ch :: S) Option.none false ls (a ++ [ch]) rest := by
  have hq : ¬(ch = '"' ∨ ch = '\'') := by
    rcases h with rfl | rfl <;> decide
  rw [repairLoop.eq_def]
  dsimp only
  rw [if_neg hq, if_pos h]

theorem stepCloseBracket (S2 : List Char) (h2 : ¬(S2 = []))
    (ls : Option (List Char × List Char)) (a rest : List Char) :
    repairLoop ('[' :: S2) Option.none false ls a (']' :: rest) =
    repairLoop S2 Option.none false ls (a ++ [']']) rest := by
  rw [repairLoop.eq_def]
  dsimp only
  rw [if_neg (by decide), if_neg (by decide), if_pos (by decide)]
  rw [if_neg (by simp), if_neg h2, if_neg (by decide)]

theorem stepCloseBrace (S2 : List Char) (h2 : ¬(S2 = []))
    (ls : Option (List Char × List Char)) (a rest : List Char) :
    repairLoop ('\x7b' :: S2) Option.none false ls a ('\x7d' :: rest) =
    repairLoop S2 Option.none false (some (a ++ ['\x7d'], S2))
      (a ++ ['\x7d']) rest := by
  rw [repairLoop.eq_def]
  dsimp only
  rw [if_neg (by decide), if_neg (by decide), if_pos (by decide)]
  rw [if_neg (by simp), if_neg h2, if_pos rfl]

theorem stepCloseLastBracket (ls : Option (List Char × List Char))
    (a rest : List Char) :
    repairLoop ['['] Option.none false ls a (']' :: rest) =
    some (a ++ [']']) := by
  rw [repairLoop.eq_def]
  dsimp only
  rw [if_neg (by decide), if_neg (by decide), if_pos (by decide)]
  rw [if_neg (by simp), if_pos rfl]

theorem stepCloseLastBrace (ls : Option (List Char × List Char))
    (a rest : List Char) :
    repairLoop ['\x7b'] Option.none false ls a ('\x7d' :: rest) =
    some (a ++ ['\x7d']) := by
  rw [repairLoop.eq_def]
  dsimp only
  rw [if_neg (by decide), if_neg (by decide), if_pos (by decide)]
  rw [if_neg (by simp), if_pos rfl]

theorem stepStrOpen (S : List Char) (ls : Option (List Char × List Char))
    (a rest : List Char) :
    repairLoop S Option.none false ls a ('"' :: rest) =
    repairLoop S (some '"') false ls (a ++ ['"']) rest := by
  rw [repairLoop.eq_def]
  dsimp only
  rw [if_pos (Or.inl rfl)]

theorem stepStrEsc {q ch : Char} (S : List Char)
    (ls : Option (List Char × List Char)) (a rest : List Char) :
    repairLoop S (some q) true ls a (ch :: rest) =
    repairLoop S (some q) false ls (a ++ [ch]) rest := by
  rw [repairLoop.eq_def]
  dsimp only
  rw [if_pos rfl]

theorem stepStrBackslash {q : Char} (S : List Char)
    (ls : Option (List Char × List Char)) (a rest : List Char) :
    repairLoop S (some q) false ls a ('\\' :: rest) =
    repairLoop S (some q) true ls (a ++ ['\\']) rest := by
  rw [repairLoop.eq_def]
  dsimp only
  rw [if_neg (by decide), if_pos rfl]

theorem stepStrClose {q : Char} (S : List Char)
    (hq : ¬(q = '\\')) (ls : Option (List Char × List Char))
    (a rest : List Char) :
    repairLoop S (some q) false ls a (q :: rest) =
    repairLoop S Option.none false ls (a ++ [q]) rest := by
  rw [repairLoop.eq_def]
  dsimp only
  rw [if_neg (by decide), if_neg hq, if_pos rfl]

theorem stepStrOther {q ch : Char} (S : List Char) (hb : ¬(ch = '\\'))
    (hq : ¬(ch = q)) (ls : Option (List Char × List Char))
    (a rest : List Char) :
    repairLoop S (some q) false ls a (ch :: rest) =
    repairLoop S (some q) false ls (a ++ [ch]) rest := by
  rw [repairLoop.eq_def]
  dsimp only
  rw [if_neg (by decide), if_neg hb, if_neg hq]

/-- Scanning a run of generic characters just accumulates them. -/
theorem scanPlainList {cs : List Char} (h : cs.all plainChar = true)
    (S : List Char) (ls : Option (List Char × List Char))
    (a rest : List Char) :
    repairLoop S Option.none false ls a (cs ++ rest) =
    repairLoop S Option.none false ls (a ++ cs) rest := by
  induction cs generalizing a with
  | nil => simp
  | cons c cs ih =>
    simp only [List.all_cons, Bool.and_eq_true] at h
    rw [List.cons_append, stepPlain h.1, ih h.2]
    simp

/-- Scanning the escaped body of a string literal and its closing quote
leaves the stack and `last_safe` untouched. -/
theorem scanStrContent : ∀ s : List Char, s.all wfChar = true →
    ∀ (S : List Char) (ls : Option (List Char × List Char))
      (a rest : List Char),
    repairLoop S (some '"') false ls a ((s.flatMap escChar ++ ['"']) ++ rest)
      = repairLoop S Option.none false ls
        (a ++ s.flatMap escChar ++ ['"']) rest := by
  intro s
  induction s with
  | nil =>
    intro _ S ls a rest
    simp only [List.flatMap_nil, List.nil_append, List.singleton_append]
    rw [stepStrClose S (by decide)]
    simp
  | cons c s ih =>
    intro hwf S ls a rest
    simp only [List.all_cons, Bool.and_eq_true] at hwf
    by_cases hc : c = '"' ∨ c = '\\'
    · simp only [List.flatMap_cons, escChar, hc, if_true, List.cons_append,
        List.append_assoc]
      rw [stepStrBackslash, stepStrEsc]
      have := ih hwf.2 S ls (a ++ ['\\'] ++ [c]) rest
      simp only [List.append_assoc, List.cons_append, List.singleton_append,
        List.nil_append] at this ⊢
      exact this
    · have hb : ¬(c = '\\') := fun h => hc (Or.inr h)
      have hq : ¬(c = '"') := fun h => hc (Or.inl h)
      simp only [List.flatMap_cons, escChar, hc, if_false, List.cons_append,
        List.singleton_append, List.append_assoc]
      rw [stepStrOther S hb hq]
      have := ih hwf.2 S ls (a ++ [c]) rest
      simp only [List.append_assoc, List.cons_append, List.singleton_append,
        List.nil_append] at this ⊢
      exact this

/-- Scanning a whole serialized string literal. -/
theorem scanStr (s : List Char) (hwf : s.all wfChar = true) (S : List Char)
    (ls : Option (List Char × List Char)) (a rest : List Char) :
    repairLoop S Option.none false ls a (serStr s ++ rest) =
    repairLoop S Option.none false ls (a ++ serStr s) rest := by
  have h0 : serStr s ++ rest =
      '"' :: ((s.flatMap escChar ++ ['"']) ++ rest) := by
    simp [serStr]
  rw [h0, stepStrOpen, scanStrContent s hwf]
  simp [serStr]

/-- Scanning a proper prefix of a string literal's body ends at
end-of-input with `last_safe` untouched. -/
theorem scanStrContentTrunc : ∀ s q r : List Char, s.all wfChar = true →
    q ++ r = s.flatMap escChar ++ ['"'] → ¬(r = []) →
    ∀ (S : List Char) (ls : Option (List Char × List Char)) (a : List Char),
    repairLoop S (some '"') false ls a q = eofRes ls := by
  intro s
  induction s with
  | nil =>
    intro q r _ hqr hr S ls a
    simp only [List.flatMap_nil, List.nil_append] at hqr
    cases q with
    | nil => exact repairLoop_nil S (some '"') false ls a
    | cons c q2 =>
      exfalso
      simp only [List.cons_append, List.cons.injEq] at hqr
      have : q2 ++ r = [] := hqr.2
      rcases List.append_eq_nil.mp this with ⟨_, h2⟩
      exact hr h2
  | cons c s ih =>
    intro q r hwf hqr hr S ls a
    simp only [List.all_cons, Bool.and_eq_true] at hwf
    cases q with
    | nil => exact repairLoop_nil S (some '"') false ls a
    | cons d q2 =>
      by_cases hc : c = '"' ∨ c = '\\'
      · simp only [List.flatMap_cons, escChar, hc, if_true, List.cons_append,
          List.append_assoc, List.cons.injEq] at hqr
        obtain ⟨rfl, hq2⟩ := hqr
        rw [stepStrBackslash]
        cases q2 with
        | nil => exact repairLoop_nil S (some '"') true ls (a ++ ['\\'])
        | cons e q3 =>
          simp only [List.cons_append, List.cons.injEq] at hq2
          obtain ⟨rfl, hq3⟩ := hq2
          rw [stepStrEsc]
          exact ih q3 r hwf.2 (by simpa [List.append_assoc] using hq3) hr S
            ls (a ++ ['\\'] ++ [e])
      · have hb : ¬(c = '\\') := fun h => hc (Or.inr h)
        have hq : ¬(c = '"') := fun h => hc (Or.inl h)
        simp only [List.flatMap_cons, escChar, hc, if_false,
          List.cons_append, List.singleton_append, List.append_assoc,
          List.cons.injEq] at hqr
        obtain ⟨rfl, hq2⟩ := hqr
        rw [stepStrOther S hb hq]
        exact ih q2 r hwf.2 (by simpa [List.append_assoc] using hq2) hr S ls
          (a ++ [d])

theorem wfElems_append (a b : List J) :
    wfElems (a ++ b) = (wfElems a && wfElems b) := by
  induction a with
  | nil => simp [wfElems]
  | cons x t ih => simp [wfElems, ih, Bool.and_assoc]

theorem wfMembers_append (a b : List (List Char × J)) :
    wfMembers (a ++ b) = (wfMembers a && wfMembers b) := by
  induction a with
  | nil => simp [wfMembers]
  | cons kv t ih => simp [wfMembers, ih, Bool.and_assoc]

theorem serElems_cons_ne (x : J) {t : List J} (h : ¬(t = [])) :
    serElems (x :: t) = ser x ++ [',', ' '] ++ serElems t := by
  cases t with
  | nil => exact absurd rfl h
  | cons y t2 => simp [serElems]

theorem serMembers_cons_ne (kv : List Char × J)
    {t : List (List Char × J)} (h : ¬(t = [])) :
    serMembers (kv :: t) =
    serStr kv.1 ++ [':', ' '] ++ ser kv.2 ++ [',', ' '] ++ serMembers t := by
  cases t with
  | nil => exact absurd rfl h
  | cons kv2 t2 => simp [serMembers]

theorem serElems_snoc (done : List J) (v : J) :
    serElems (done ++ [v]) = doneTextA done ++ ser v := by
  induction done with
  | nil => simp [serElems, doneTextA]
  | cons d t ih =>
    have hne : ¬(t ++ [v] = []) := by simp
    rw [List.cons_append, serElems_cons_ne d hne, ih]
    simp [doneTextA]

theorem serMembers_snoc (done : List (List Char × J)) (kv : List Char × J) :
    serMembers (done ++ [kv]) =
    doneTextO done ++ (serStr kv.1 ++ [':', ' '] ++ ser kv.2) := by
  induction done with
  | nil => simp [serMembers, doneTextO]
  | cons d t ih =>
    have hne : ¬(t ++ [kv] = []) := by simp
    rw [List.cons_append, serMembers_cons_ne d hne, ih]
    simp [doneTextO]

theorem doneTextA_snoc (done : List J) (v : J) :
    doneTextA (done ++ [v]) = doneTextA done ++ ser v ++ [',', ' '] := by
  simp [doneTextA]

theorem doneTextO_snoc (done : List (List Char × J)) (kv : List Char × J) :
    doneTextO (done ++ [kv]) =
    doneTextO done ++ serStr kv.1 ++ ':' :: ' ' :: (ser kv.2 ++ [',', ' '])
    := by
  simp [doneTextO]

/-- Closing every open frame turns the consumed text plus the pending
closers into the serialization of the pruned document. -/
theorem ser_prune : ∀ (C : List Frame) (v : J),
    ser (prune C v) = openText C ++ ser v ++ closeChars (stackOf C) := by
  intro C
  induction C with
  | nil => intro v; simp [prune, openText, stackOf, closeChars]
  | cons f C ih =>
    intro v
    cases f with
    | arrF done =>
      rw [prune, plug, ih]
      have : ser (J.arr (done ++ [v])) =
          '[' :: (doneTextA done ++ ser v) ++ [']'] := by
        rw [ser.eq_def]
        dsimp only
        rw [serElems_snoc]
      rw [this]
      simp [openText, frameOpen, stackOf, closeChars, frameOpenChar]
    | objF done k =>
      rw [prune, plug, ih]
      have : ser (J.obj (done ++ [(k, v)])) =
          '\x7b' :: (doneTextO done ++
            (serStr k ++ [':', ' '] ++ ser v)) ++ ['\x7d'] := by
        rw [ser.eq_def]
        dsimp only
        rw [serMembers_snoc]
      rw [this]
      simp [openText, frameOpen, stackOf, closeChars, frameOpenChar]

theorem prune_wf : ∀ (C : List Frame) (v : J), wfCtx C = true →
    wfJ v = true → wfJ (prune C v) = true := by
  intro C
  induction C with
  | nil => intro v _ hv; exact hv
  | cons f C ih =>
    intro v hctx hv
    simp only [wfCtx, Bool.and_eq_true] at hctx
    refine ih (plug f v) hctx.2 ?_
    cases f with
    | arrF done =>
      simp only [wfFrame] at hctx
      simp only [plug, wfJ, wfElems_append, Bool.and_eq_true]
      exact ⟨hctx.1, by simp [wfElems, hv]⟩
    | objF done k =>
      simp only [wfFrame, Bool.and_eq_true] at hctx
      simp only [plug, wfJ, wfMembers_append, Bool.and_eq_true]
      exact ⟨hctx.1.1, by simp [wfMembers, hv, hctx.1.2]⟩

/-- Split a prefix relation over an append. -/
theorem splitPre : ∀ (a : List Char) (q r b : List Char), q ++ r = a ++ b →
    (∃ r1, q ++ r1 = a) ∨ (∃ q2, q = a ++ q2 ∧ q2 ++ r = b) := by
  intro a
  induction a with
  | nil =>
    intro q r b h
    exact Or.inr ⟨q, rfl, by simpa using h⟩
  | cons c a ih =>
    intro q r b h
    cases q with
    | nil => exact Or.inl ⟨c :: a, rfl⟩
    | cons d q2 =>
      simp only [List.cons_append, List.cons.injEq] at h
      obtain ⟨rfl, h2⟩ := h
      rcases ih q2 r b h2 with ⟨r1, hr1⟩ | ⟨q3, hq3, hq3b⟩
      · exact Or.inl ⟨r1, by rw [List.cons_append, hr1]⟩
      · exact Or.inr ⟨q3, by rw [List.cons_append, hq3], hq3b⟩

theorem goodLS_record (C : List Frame) (v : J) (hctx : wfCtx C = true)
    (hv : wfJ v = true) (u : List Char) (hu : u = openText C ++ ser v) :
    GoodLS (some (u, stackOf C)) := by
  refine ⟨prune C v, prune_wf C v hctx hv, ?_⟩
  rw [hu, ser_prune, List.append_assoc]

theorem plain_of_digit {c : Char} (h : c.isDigit = true) :
    plainChar c = true := by
  simp only [plainChar, decide_eq_true_eq, not_or]
  refine ⟨?_, ?_, ?_, ?_, ?_, ?_⟩ <;> exact digit_ne h (by decide)

theorem num_all_plain {neg : Bool} {ds : List Char}
    (h : wfDigits ds = true) :
    (ser (J.num neg ds)).all plainChar = true := by
  have hall := wfDigits_all h
  have hds : ds.all plainChar = true := by
    rw [List.all_eq_true] at hall ⊢
    intro c hc
    exact plain_of_digit (hall c hc)
  cases neg with
  | false => simpa [ser] using hds
  | true =>
    simp only [ser, if_true, List.all_append, Bool.and_eq_true]
    exact ⟨by decide, hds⟩

/-- Scanning the complete serialization of a well-formed value inside a
nonempty context consumes it, keeps the stack, and leaves a good
`last_safe`. -/
theorem scan_complete : ∀ f : Nat,
    (∀ v (C : List Frame) ls a rest, wfJ v = true → sizeJ v ≤ f →
      wfCtx C = true → ¬(C = []) → GoodLS ls → a = openText C →
      ∃ ls2, GoodLS ls2 ∧
        repairLoop (stackOf C) Option.none false ls a (ser v ++ rest) =
        repairLoop (stackOf C) Option.none false ls2 (a ++ ser v) rest) ∧
    (∀ xs done (C0 : List Frame) ls a rest, wfElems xs = true →
      ¬(xs = []) → sizeElems xs ≤ f → wfElems done = true →
      wfCtx C0 = true → GoodLS ls → a = openText (Frame.arrF done :: C0) →
      ∃ ls2, GoodLS ls2 ∧
        repairLoop ('[' :: stackOf C0) Option.none false ls a
          (serElems xs ++ rest) =
        repairLoop ('[' :: stackOf C0) Option.none false ls2
          (a ++ serElems xs) rest) ∧
    (∀ ms done (C0 : List Frame) ls a rest, wfMembers ms = true →
      ¬(ms = []) → sizeMembers ms ≤ f → wfMembers done = true →
      wfCtx C0 = true → GoodLS ls →
      a = openText C0 ++ '\x7b' :: doneTextO done →
      ∃ ls2, GoodLS ls2 ∧
        repairLoop ('\x7b' :: stackOf C0) Option.none false ls a
          (serMembers ms ++ rest) =
        repairLoop ('\x7b' :: stackOf C0) Option.none false ls2
          (a ++ serMembers ms) rest) := by
  intro f
  induction f with
  | zero =>
    refine ⟨?_, ?_, ?_⟩
    · intro v _ _ _ _ _ hs _ _ _ _
      have := sizeJ_pos v
      omega
    · intro xs _ _ _ _ _ _ hne hs _ _ _ _
      cases xs with
      | nil => exact absurd rfl hne
      | cons x t =>
        simp only [sizeElems] at hs
        omega
    · intro ms _ _ _ _ _ _ hne hs _ _ _ _
      cases ms with
      | nil => exact absurd rfl hne
      | cons kv t =>
        simp only [sizeMembers] at hs
        omega
  | succ f ih =>
    obtain ⟨ihV, ihE, ihM⟩ := ih
    refine ⟨?_, ?_, ?_⟩
    · intro v C ls a rest hv hs hctx hC hls ha
      subst ha
      have hSne : ¬(stackOf C = []) := by
        intro h
        exact hC (List.map_eq_nil_iff.mp h)
      cases v with
      | null =>
        exact ⟨ls, hls, scanPlainList (by decide) (stackOf C) ls
          (openText C) rest⟩
      | jtrue =>
        exact ⟨ls, hls, scanPlainList (by decide) (stackOf C) ls
          (openText C) rest⟩
      | jfalse =>
        exact ⟨ls, hls, scanPlainList (by decide) (stackOf C) ls
          (openText C) rest⟩
      | num neg ds =>
        simp only [wfJ] at hv
        exact ⟨ls, hls, scanPlainList (num_all_plain hv) (stackOf C) ls
          (openText C) rest⟩
      | str s =>
        simp only [wfJ] at hv
        exact ⟨ls, hls, scanStr s hv (stackOf C) ls (openText C) rest⟩
      | arr xs =>
        simp only [wfJ] at hv
        cases xs with
        | nil =>
          refine ⟨ls, hls, ?_⟩
          have h1 : ser (J.arr []) ++ rest = '[' :: ']' :: rest := by
            simp [ser, serElems]
          have h2 : openText C ++ ser (J.arr []) =
              (openText C ++ ['[']) ++ [']'] := by
            simp [ser, serElems]
          rw [h1, stepOpen (Or.inr rfl), stepCloseBracket (stackOf C) hSne,
            h2]
        | cons x t =>
          have h1 : ser (J.arr (x :: t)) ++ rest =
              '[' :: (serElems (x :: t) ++ ']' :: rest) := by
            simp [ser]
          have haeq : openText C ++ ['['] =
              openText (Frame.arrF [] :: C) := by
            simp [openText, frameOpen, doneTextA]
          obtain ⟨ls2, hls2, hE⟩ := ihE (x :: t) [] C ls
            (openText C ++ ['[']) (']' :: rest) hv (by simp)
            (by simp only [sizeJ] at hs; omega) (by simp [wfElems]) hctx
            hls haeq
          refine ⟨ls2, hls2, ?_⟩
          have h2 : openText C ++ ser (J.arr (x :: t)) =
              ((openText C ++ ['[']) ++ serElems (x :: t)) ++ [']'] := by
            simp [ser]
          rw [h1, stepOpen (Or.inr rfl), hE,
            stepCloseBracket (stackOf C) hSne, h2]
      | obj ms =>
        simp only [wfJ] at hv
        cases ms with
        | nil =>
          have h1 : ser (J.obj []) ++ rest = '\x7b' :: '\x7d' :: rest := by
            simp [ser, serMembers]
          have h2 : openText C ++ ser (J.obj []) =
              (openText C ++ ['\x7b']) ++ ['\x7d'] := by
            simp [ser, serMembers]
          refine ⟨some ((openText C ++ ['\x7b']) ++ ['\x7d'], stackOf C),
            goodLS_record C (J.obj []) hctx (by simp [wfJ, wfMembers])
              _ h2.symm, ?_⟩
          rw [h1, stepOpen (Or.inl rfl), stepCloseBrace (stackOf C) hSne,
            h2]
        | cons kv t =>
          have h1 : ser (J.obj (kv :: t)) ++ rest =
              '\x7b' :: (serMembers (kv :: t) ++ '\x7d' :: rest) := by
            simp [ser]
          have haeq : openText C ++ ['\x7b'] =
              openText C ++ '\x7b' :: doneTextO [] := by
            simp [doneTextO]
          obtain ⟨ls2, hls2, hM⟩ := ihM (kv :: t) [] C ls
            (openText C ++ ['\x7b']) ('\x7d' :: rest) hv (by simp)
            (by simp only [sizeJ] at hs; omega) (by simp [wfMembers]) hctx
            hls haeq
          have h2 : openText C ++ ser (J.obj (kv :: t)) =
              ((openText C ++ ['\x7b']) ++ serMembers (kv :: t)) ++
                ['\x7d'] := by
            simp [ser]
          refine ⟨some (((openText C ++ ['\x7b']) ++ serMembers (kv :: t))
              ++ ['\x7d'], stackOf C),
            goodLS_record C (J.obj (kv :: t)) hctx hv _ h2.symm, ?_⟩
          rw [h1, stepOpen (Or.inl rfl), hM,
            stepCloseBrace (stackOf C) hSne, h2]
    · intro xs done C0 ls a rest hxs hne hs hdone hctx0 hls ha
      cases xs with
      | nil => exact absurd rfl hne
      | cons x t =>
        simp only [wfElems, Bool.and_eq_true] at hxs
        have hctx : wfCtx (Frame.arrF done :: C0) = true := by
          simp [wfCtx, wfFrame, hdone, hctx0]
        have hCne : ¬((Frame.arrF done :: C0 : List Frame) = []) := by
          simp
        have hstack : stackOf (Frame.arrF done :: C0) =
            '[' :: stackOf C0 := by
          simp [stackOf, frameOpenChar]
        cases t with
        | nil =>
          obtain ⟨ls2, hls2, hV⟩ := ihV x (Frame.arrF done :: C0) ls a rest
            hxs.1 (by simp only [sizeElems] at hs; omega) hctx hCne hls ha
          rw [hstack] at hV
          refine ⟨ls2, hls2, ?_⟩
          have h1 : serElems [x] = ser x := by simp [serElems]
          rw [h1]
          exact hV
        | cons y t2 =>
          obtain ⟨ls2, hls2, hV⟩ := ihV x (Frame.arrF done :: C0) ls a
            (',' :: ' ' :: (serElems (y :: t2) ++ rest)) hxs.1
            (by simp only [sizeElems] at hs; omega) hctx hCne hls ha
          rw [hstack] at hV
          have ha2 : ((a ++ ser x) ++ [',']) ++ [' '] =
              openText (Frame.arrF (done ++ [x]) :: C0) := by
            subst ha
            simp [openText, frameOpen, doneTextA_snoc, List.append_assoc]
          obtain ⟨ls3, hls3, hE⟩ := ihE (y :: t2) (done ++ [x]) C0 ls2
            (((a ++ ser x) ++ [',']) ++ [' ']) rest hxs.2 (by simp)
            (by simp only [sizeElems] at hs ⊢; omega)
            (by simp [wfElems_append, wfElems, hdone, hxs.1]) hctx0 hls2
            ha2
          refine ⟨ls3, hls3, ?_⟩
          have hinp : serElems (x :: y :: t2) ++ rest =
              ser x ++ (',' :: ' ' :: (serElems (y :: t2) ++ rest)) := by
            rw [serElems_cons_ne x (by simp)]
            simp
          have hacc : (((a ++ ser x) ++ [',']) ++ [' ']) ++
              serElems (y :: t2) = a ++ serElems (x :: y :: t2) := by
            rw [serElems_cons_ne x (by simp)]
            simp
          rw [hinp, hV, stepPlain (by decide), stepPlain (by decide), hE,
            hacc]
    · intro ms done C0 ls a rest hms hne hs hdone hctx0 hls ha
      cases ms with
      | nil => exact absurd rfl hne
      | cons kv t =>
        simp only [wfMembers, Bool.and_eq_true] at hms
        have hctx : wfCtx (Frame.objF done kv.1 :: C0) = true := by
          simp [wfCtx, wfFrame, hdone, hctx0, hms.1.1]
        have hCne : ¬((Frame.objF done kv.1 :: C0 : List Frame) = []) := by
          simp
        have hstack : stackOf (Frame.objF done kv.1 :: C0) =
            '\x7b' :: stackOf C0 := by
          simp [stackOf, frameOpenChar]
        have ha2 : ((a ++ serStr kv.1) ++ [':']) ++ [' '] =
            openText (Frame.objF done kv.1 :: C0) := by
          subst ha
          simp [openText, frameOpen, List.append_assoc]
        cases t with
        | nil =>
          obtain ⟨ls2, hls2, hV⟩ := ihV kv.2 (Frame.objF done kv.1 :: C0)
            ls (((a ++ serStr kv.1) ++ [':']) ++ [' ']) rest hms.1.2
            (by simp only [sizeMembers] at hs; omega) hctx hCne hls ha2
          rw [hstack] at hV
          refine ⟨ls2, hls2, ?_⟩
          have hinp : serMembers [kv] ++ rest =
              serStr kv.1 ++ (':' :: ' ' :: (ser kv.2 ++ rest)) := by
            simp [serMembers]
          have hacc : (((a ++ serStr kv.1) ++ [':']) ++ [' ']) ++ ser kv.2
              = a ++ serMembers [kv] := by
            simp [serMembers]
          rw [hinp, scanStr kv.1 hms.1.1, stepPlain (by decide),
            stepPlain (by decide), hV, hacc]
        | cons kv2 t2 =>
          obtain ⟨ls2, hls2, hV⟩ := ihV kv.2 (Frame.objF done kv.1 :: C0)
            ls (((a ++ serStr kv.1) ++ [':']) ++ [' '])
            (',' :: ' ' :: (serMembers (kv2 :: t2) ++ rest)) hms.1.2
            (by simp only [sizeMembers] at hs; omega) hctx hCne hls ha2
          rw [hstack] at hV
          have ha3 : ((((((a ++ serStr kv.1) ++ [':']) ++ [' ']) ++
              ser kv.2) ++ [',']) ++ [' ']) =
              openText C0 ++ '\x7b' :: doneTextO (done ++ [kv]) := by
            subst ha
            simp [doneTextO_snoc, List.append_assoc]
          obtain ⟨ls3, hls3, hM⟩ := ihM (kv2 :: t2) (done ++ [kv]) C0 ls2
            ((((((a ++ serStr kv.1) ++ [':']) ++ [' ']) ++ ser kv.2) ++
              [',']) ++ [' ']) rest hms.2 (by simp)
            (by simp only [sizeMembers] at hs ⊢; omega)
            (by simp [wfMembers_append, wfMembers, hdone, hms.1.1,
              hms.1.2]) hctx0 hls2 ha3
          refine ⟨ls3, hls3, ?_⟩
          have hinp : serMembers (kv :: kv2 :: t2) ++ rest =
              serStr kv.1 ++ (':' :: ' ' :: (ser kv.2 ++
                (',' :: ' ' :: (serMembers (kv2 :: t2) ++ rest)))) := by
            rw [serMembers_cons_ne kv (by simp)]
            simp
          have hacc : ((((((a ++ serStr kv.1) ++ [':']) ++ [' ']) ++
              ser kv.2) ++ [',']) ++ [' ']) ++ serMembers (kv2 :: t2) =
              a ++ serMembers (kv :: kv2 :: t2) := by
            rw [serMembers_cons_ne kv (by simp)]
            simp
          rw [hinp, scanStr kv.1 hms.1.1, stepPlain (by decide),
            stepPlain (by decide), hV, stepPlain (by decide),
            stepPlain (by decide), hM, hacc]

theorem scanPlainTrunc {cs : List Char} (h : cs.all plainChar = true)
    (S : List Char) (ls : Option (List Char × List Char)) (a : List Char) :
    repairLoop S Option.none false ls a cs = eofRes ls := by
  have h2 := scanPlainList h S ls a []
  rw [List.append_nil] at h2
  rw [h2, repairLoop_nil]

/-- A truncated string literal never changes `last_safe`. -/
theorem scanStrTrunc (s : List Char) (hwf : s.all wfChar = true)
    (q r : List Char) (hqr : q ++ r = serStr s) (hr : ¬(r = []))
    (S : List Char) (ls : Option (List Char × List Char)) (a : List Char) :
    repairLoop S Option.none false ls a q = eofRes ls := by
  cases q with
  | nil => exact repairLoop_nil S Option.none false ls a
  | cons d q2 =>
    simp only [serStr, List.cons_append, List.cons.injEq] at hqr
    obtain ⟨rfl, hq2⟩ := hqr
    rw [stepStrOpen, scanStrContentTrunc s q2 r hwf hq2 hr]

/-- Scanning a proper prefix of a well-formed serialization inside a
context ends at end-of-input with a result that is either nothing or a
well-formed serialization. -/
theorem scan_trunc : ∀ f : Nat,
    (∀ v (C : List Frame) ls a q r, wfJ v = true → sizeJ v ≤ f →
      wfCtx C = true → ¬(C = []) → GoodLS ls → a = openText C →
      q ++ r = ser v → ¬(r = []) →
      GoodRes (repairLoop (stackOf C) Option.none false ls a q)) ∧
    (∀ xs done (C0 : List Frame) ls a q r, wfElems xs = true →
      ¬(xs = []) → sizeElems xs ≤ f → wfElems done = true →
      wfCtx C0 = true → GoodLS ls → a = openText (Frame.arrF done :: C0) →
      q ++ r = serElems xs → ¬(r = []) →
      GoodRes (repairLoop ('[' :: stackOf C0) Option.none false ls a q)) ∧
    (∀ ms done (C0 : List Frame) ls a q r, wfMembers ms = true →
      ¬(ms = []) → sizeMembers ms ≤ f → wfMembers done = true →
      wfCtx C0 = true → GoodLS ls →
      a = openText C0 ++ '\x7b' :: doneTextO done →
      q ++ r = serMembers ms → ¬(r = []) →
      GoodRes (repairLoop ('\x7b' :: stackOf C0) Option.none false ls a q))
    := by
  intro f
  induction f with
  | zero =>
    refine ⟨?_, ?_, ?_⟩
    · intro v _ _ _ _ _ _ hs _ _ _ _ _ _
      have := sizeJ_pos v
      omega
    · intro xs _ _ _ _ _ _ _ hne hs _ _ _ _ _ _
      cases xs with
      | nil => exact absurd rfl hne
      | cons x t =>
        simp only [sizeElems] at hs
        omega
    · intro ms _ _ _ _ _ _ _ hne hs _ _ _ _ _ _
      cases ms with
      | nil => exact absurd rfl hne
      | cons kv t =>
        simp only [sizeMembers] at hs
        omega
  | succ f ih =>
    obtain ⟨ihV, ihE, ihM⟩ := ih
    refine ⟨?_, ?_, ?_⟩
    · intro v C ls a q r hv hs hctx hC hls ha hqr hr
      subst ha
      have hSne : ¬(stackOf C = []) := by
        intro h
        exact hC (List.map_eq_nil_iff.mp h)
      cases v with
      | null =>
        have hq : q.all plainChar = true := by
          have : (q ++ r).all plainChar = true := by
            rw [hqr]
            decide
          simp only [List.all_append, Bool.and_eq_true] at this
          exact this.1
        rw [scanPlainTrunc hq]
        exact goodRes_eof hls
      | jtrue =>
        have hq : q.all plainChar = true := by
          have : (q ++ r).all plainChar = true := by
            rw [hqr]
            decide
          simp only [List.all_append, Bool.and_eq_true] at this
          exact this.1
        rw [scanPlainTrunc hq]
        exact goodRes_eof hls
      | jfalse =>
        have hq : q.all plainChar = true := by
          have : (q ++ r).all plainChar = true := by
            rw [hqr]
            decide
          simp only [List.all_append, Bool.and_eq_true] at this
          exact this.1
        rw [scanPlainTrunc hq]
        exact goodRes_eof hls
      | num neg ds =>
        simp only [wfJ] at hv
        have hq : q.all plainChar = true := by
          have : (q ++ r).all plainChar = true := by
            rw [hqr]
            exact num_all_plain hv
          simp only [List.all_append, Bool.and_eq_true] at this
          exact this.1
        rw [scanPlainTrunc hq]
        exact goodRes_eof hls
      | str s =>
        simp only [wfJ] at hv
        rw [scanStrTrunc s hv q r hqr hr (stackOf C) ls (openText C)]
        exact goodRes_eof hls
      | arr xs =>
        simp only [wfJ] at hv
        cases q with
        | nil =>
          rw [repairLoop_nil]
          exact goodRes_eof hls
        | cons d q2 =>
          have hser : ser (J.arr xs) = '[' :: (serElems xs ++ [']']) := by
            simp [ser]
          rw [hser] at hqr
          simp only [List.cons_append, List.cons.injEq] at hqr
          obtain ⟨rfl, hq2⟩ := hqr
          rw [stepOpen (Or.inr rfl)]
          have haeq : openText C ++ ['['] =
              openText (Frame.arrF [] :: C) := by
            simp [openText, frameOpen, doneTextA]
          have hfull : q2 = serElems xs →
              GoodRes (repairLoop ('[' :: stackOf C) Option.none false ls
                (openText C ++ ['[']) q2) := by
            intro hq2e
            subst hq2e
            cases xs with
            | nil =>
              rw [show serElems [] = ([] : List Char) from rfl,
                repairLoop_nil]
              exact goodRes_eof hls
            | cons x t =>
              obtain ⟨ls2, hls2, hE⟩ :=
                (scan_complete (sizeElems (x :: t))).2.1 (x :: t) [] C ls
                  (openText C ++ ['[']) [] hv (by simp) le_rfl
                  (by simp [wfElems]) hctx hls haeq
              rw [List.append_nil] at hE
              rw [hE, repairLoop_nil]
              exact goodRes_eof hls2
          rcases splitPre (serElems xs) q2 r [']'] hq2 with
            ⟨r1, hr1⟩ | ⟨q3, hq3, hq3b⟩
          · by_cases hr1e : r1 = []
            · subst hr1e
              rw [List.append_nil] at hr1
              exact hfull hr1
            · have hxne : ¬(xs = []) := by
                intro h
                subst h
                rw [show serElems [] = ([] : List Char) from rfl] at hr1
                rcases List.append_eq_nil.mp hr1 with ⟨_, h2⟩
                exact hr1e h2
              exact ihE xs [] C ls (openText C ++ ['[']) q2 r1 hv hxne
                (by simp only [sizeJ] at hs; omega) (by simp [wfElems])
                hctx hls haeq hr1 hr1e
          · cases q3 with
            | nil =>
              rw [List.append_nil] at hq3
              exact hfull hq3
            | cons c q4 =>
              exfalso
              simp only [List.cons_append, List.cons.injEq] at hq3b
              rcases List.append_eq_nil.mp hq3b.2 with ⟨_, h2⟩
              exact hr h2
      | obj ms =>
        simp only [wfJ] at hv
        cases q with
        | nil =>
          rw [repairLoop_nil]
          exact goodRes_eof hls
        | cons d q2 =>
          have hser : ser (J.obj ms) =
              '\x7b' :: (serMembers ms ++ ['\x7d']) := by
            simp [ser]
          rw [hser] at hqr
          simp only [List.cons_append, List.cons.injEq] at hqr
          obtain ⟨rfl, hq2⟩ := hqr
          rw [stepOpen (Or.inl rfl)]
          have haeq : openText C ++ ['\x7b'] =
              openText C ++ '\x7b' :: doneTextO [] := by
            simp [doneTextO]
          have hfull : q2 = serMembers ms →
              GoodRes (repairLoop ('\x7b' :: stackOf C) Option.none false
                ls (openText C ++ ['\x7b']) q2) := by
            intro hq2e
            subst hq2e
            cases ms with
            | nil =>
              rw [show serMembers [] = ([] : List Char) from rfl,
                repairLoop_nil]
              exact goodRes_eof hls
            | cons kv t =>
              obtain ⟨ls2, hls2, hM⟩ :=
                (scan_complete (sizeMembers (kv :: t))).2.2 (kv :: t) [] C
                  ls (openText C ++ ['\x7b']) [] hv (by simp) le_rfl
                  (by simp [wfMembers]) hctx hls haeq
              rw [List.append_nil] at hM
              rw [hM, repairLoop_nil]
              exact goodRes_eof hls2
          rcases splitPre (serMembers ms) q2 r ['\x7d'] hq2 with
            ⟨r1, hr1⟩ | ⟨q3, hq3, hq3b⟩
          · by_cases hr1e : r1 = []
            · subst hr1e
              rw [List.append_nil] at hr1
              exact hfull hr1
            · have hmne : ¬(ms = []) := by
                intro h
                subst h
                rw [show serMembers [] = ([] : List Char) from rfl] at hr1
                rcases List.append_eq_nil.mp hr1 with ⟨_, h2⟩
                exact hr1e h2
              exact ihM ms [] C ls (openText C ++ ['\x7b']) q2 r1 hv hmne
                (by simp only [sizeJ] at hs; omega) (by simp [wfMembers])
                hctx hls haeq hr1 hr1e
          · cases q3 with
            | nil =>
              rw [List.append_nil] at hq3
              exact hfull hq3
            | cons c q4 =>
              exfalso
              simp only [List.cons_append, List.cons.injEq] at hq3b
              rcases List.append_eq_nil.mp hq3b.2 with ⟨_, h2⟩
              exact hr h2
    · intro xs done C0 ls a q r hxs hne hs hdone hctx0 hls ha hqr hr
      cases xs with
      | nil => exact absurd rfl hne
      | cons x t =>
        simp only [wfElems, Bool.and_eq_true] at hxs
        have hctx : wfCtx (Frame.arrF done :: C0) = true := by
          simp [wfCtx, wfFrame, hdone, hctx0]
        have hCne : ¬((Frame.arrF done :: C0 : List Frame) = []) := by
          simp
        have hstack : stackOf (Frame.arrF done :: C0) =
            '[' :: stackOf C0 := by
          simp [stackOf, frameOpenChar]
        cases t with
        | nil =>
          rw [show serElems [x] = ser x from by simp [serElems]] at hqr
          have := ihV x (Frame.arrF done :: C0) ls a q r hxs.1
            (by simp only [sizeElems] at hs; omega) hctx hCne hls ha hqr hr
          rw [hstack] at this
          exact this
        | cons y t2 =>
          have hser : serElems (x :: y :: t2) =
              ser x ++ (',' :: ' ' :: serElems (y :: t2)) := by
            rw [serElems_cons_ne x (by simp)]
            simp
          rw [hser] at hqr
          rcases splitPre (ser x) q r (',' :: ' ' :: serElems (y :: t2))
            hqr with ⟨r1, hr1⟩ | ⟨q3, hq3, hq3b⟩
          · by_cases hr1e : r1 = []
            · subst hr1e
              rw [List.append_nil] at hr1
              subst hr1
              obtain ⟨ls2, hls2, hV⟩ :=
                (scan_complete (sizeJ x)).1 x (Frame.arrF done :: C0) ls a
                  [] hxs.1 le_rfl hctx hCne hls ha
              rw [List.append_nil, hstack] at hV
              rw [hV, repairLoop_nil]
              exact goodRes_eof hls2
            · have := ihV x (Frame.arrF done :: C0) ls a q r1 hxs.1
                (by simp only [sizeElems] at hs; omega) hctx hCne hls ha
                hr1 hr1e
              rw [hstack] at this
              exact this
          · subst hq3
            obtain ⟨ls2, hls2, hV⟩ :=
              (scan_complete (sizeJ x)).1 x (Frame.arrF done :: C0) ls a
                q3 hxs.1 le_rfl hctx hCne hls ha
            rw [hstack] at hV
            rw [hV]
            cases q3 with
            | nil =>
              rw [repairLoop_nil]
              exact goodRes_eof hls2
            | cons c q4 =>
              simp only [List.cons_append, List.cons.injEq] at hq3b
              obtain ⟨rfl, hq4⟩ := hq3b
              rw [stepPlain (by decide)]
              cases q4 with
              | nil =>
                rw [repairLoop_nil]
                exact goodRes_eof hls2
              | cons c2 q5 =>
                simp only [List.cons_append, List.cons.injEq] at hq4
                obtain ⟨rfl, hq5⟩ := hq4
                rw [stepPlain (by decide)]
                have ha2 : ((a ++ ser x) ++ [',']) ++ [' '] =
                    openText (Frame.arrF (done ++ [x]) :: C0) := by
                  subst ha
                  simp [openText, frameOpen, doneTextA_snoc,
                    List.append_assoc]
                exact ihE (y :: t2) (done ++ [x]) C0 ls2
                  (((a ++ ser x) ++ [',']) ++ [' ']) q5 r hxs.2 (by simp)
                  (by simp only [sizeElems] at hs ⊢; omega)
                  (by simp [wfElems_append, wfElems, hdone, hxs.1]) hctx0
                  hls2 ha2 hq5 hr
    · intro ms done C0 ls a q r hms hne hs hdone hctx0 hls ha hqr hr
      cases ms with
      | nil => exact absurd rfl hne
      | cons kv t =>
        simp only [wfMembers, Bool.and_eq_true] at hms
        have hctx : wfCtx (Frame.objF done kv.1 :: C0) = true := by
          simp [wfCtx, wfFrame, hdone, hctx0, hms.1.1]
        have hCne : ¬((Frame.objF done kv.1 :: C0 : List Frame) = []) := by
          simp
        have hstack : stackOf (Frame.objF done kv.1 :: C0) =
            '\x7b' :: stackOf C0 := by
          simp [stackOf, frameOpenChar]
        have ha2 : ((a ++ serStr kv.1) ++ [':']) ++ [' '] =
            openText (Frame.objF done kv.1 :: C0) := by
          subst ha
          simp [openText, frameOpen, List.append_assoc]
        cases t with
        | nil =>
          have hserM : serMembers [kv] =
              serStr kv.1 ++ (':' :: ' ' :: ser kv.2) := by
            simp [serMembers]
          rw [hserM] at hqr
          rcases splitPre (serStr kv.1) q r _ hqr with
            ⟨r1, hr1⟩ | ⟨q3, hq3, hq3b⟩
          · by_cases hr1e : r1 = []
            · subst hr1e
              rw [List.append_nil] at hr1
              subst hr1
              have h2 := scanStr kv.1 hms.1.1 ('\x7b' :: stackOf C0) ls a []
              rw [List.append_nil] at h2
              rw [h2, repairLoop_nil]
              exact goodRes_eof hls
            · rw [scanStrTrunc kv.1 hms.1.1 q r1 hr1 hr1e
                ('\x7b' :: stackOf C0) ls a]
              exact goodRes_eof hls
          · subst hq3
            rw [scanStr kv.1 hms.1.1]
            cases q3 with
            | nil =>
              rw [repairLoop_nil]
              exact goodRes_eof hls
            | cons c q4 =>
              simp only [List.cons_append, List.cons.injEq] at hq3b
              obtain ⟨rfl, hq4⟩ := hq3b
              rw [stepPlain (by decide)]
              cases q4 with
              | nil =>
                rw [repairLoop_nil]
                exact goodRes_eof hls
              | cons c2 q5 =>
                simp only [List.cons_append, List.cons.injEq] at hq4
                obtain ⟨rfl, hq5⟩ := hq4
                rw [stepPlain (by decide)]
                have := ihV kv.2 (Frame.objF done kv.1 :: C0) ls
                  (((a ++ serStr kv.1) ++ [':']) ++ [' ']) q5 r hms.1.2
                  (by simp only [sizeMembers] at hs; omega) hctx hCne hls
                  ha2 hq5 hr
                rw [hstack] at this
                exact this
        | cons kv2 t2 =>
          have hserM : serMembers (kv :: kv2 :: t2) =
              serStr kv.1 ++ (':' :: ' ' ::
                (ser kv.2 ++ (',' :: ' ' :: serMembers (kv2 :: t2)))) := by
            rw [serMembers_cons_ne kv (by simp)]
            simp
          rw [hserM] at hqr
          rcases splitPre (serStr kv.1) q r _ hqr with
            ⟨r1, hr1⟩ | ⟨q3, hq3, hq3b⟩
          · by_cases hr1e : r1 = []
            · subst hr1e
              rw [List.append_nil] at hr1
              subst hr1
              have h2 := scanStr kv.1 hms.1.1 ('\x7b' :: stackOf C0) ls a []
              rw [List.append_nil] at h2
              rw [h2, repairLoop_nil]
              exact goodRes_eof hls
            · rw [scanStrTrunc kv.1 hms.1.1 q r1 hr1 hr1e
                ('\x7b' :: stackOf C0) ls a]
              exact goodRes_eof hls
          · subst hq3
            rw [scanStr kv.1 hms.1.1]
            cases q3 with
            | nil =>
              rw [repairLoop_nil]
              exact goodRes_eof hls
            | cons c q4 =>
              simp only [List.cons_append, List.cons.injEq] at hq3b
              obtain ⟨rfl, hq4⟩ := hq3b
              rw [stepPlain (by decide)]
              cases q4 with
              | nil =>
                rw [repairLoop_nil]
                exact goodRes_eof hls
              | cons c2 q5 =>
                simp only [List.cons_append, List.cons.injEq] at hq4
                obtain ⟨rfl, hq5⟩ := hq4
                rw [stepPlain (by decide)]
                rcases splitPre (ser kv.2) q5 r _ hq5 with
                  ⟨r2, hr2⟩ | ⟨q6, hq6, hq6b⟩
                · by_cases hr2e : r2 = []
                  · subst hr2e
                    rw [List.append_nil] at hr2
                    subst hr2
                    obtain ⟨ls2, hls2, hV⟩ :=
                      (scan_complete (sizeJ kv.2)).1 kv.2
                        (Frame.objF done kv.1 :: C0) ls
                        (((a ++ serStr kv.1) ++ [':']) ++ [' ']) []
                        hms.1.2 le_rfl hctx hCne hls ha2
                    rw [List.append_nil, hstack] at hV
                    rw [hV, repairLoop_nil]
                    exact goodRes_eof hls2
                  · have := ihV kv.2 (Frame.objF done kv.1 :: C0) ls
                      (((a ++ serStr kv.1) ++ [':']) ++ [' ']) q5 r2
                      hms.1.2 (by simp only [sizeMembers] at hs; omega)
                      hctx hCne hls ha2 hr2 hr2e
                    rw [hstack] at this
                    exact this
                · subst hq6
                  obtain ⟨ls2, hls2, hV⟩ :=
                    (scan_complete (sizeJ kv.2)).1 kv.2
                      (Frame.objF done kv.1 :: C0) ls
                      (((a ++ serStr kv.1) ++ [':']) ++ [' ']) q6 hms.1.2
                      le_rfl hctx hCne hls ha2
                  rw [hstack] at hV
                  rw [hV]
                  cases q6 with
                  | nil =>
                    rw [repairLoop_nil]
                    exact goodRes_eof hls2
                  | cons c3 q7 =>
                    simp only [List.cons_append, List.cons.injEq] at hq6b
                    obtain ⟨rfl, hq7⟩ := hq6b
                    rw [stepPlain (by decide)]
                    cases q7 with
                    | nil =>
                      rw [repairLoop_nil]
                      exact goodRes_eof hls2
                    | cons c4 q8 =>
                      simp only [List.cons_append, List.cons.injEq] at hq7
                      obtain ⟨rfl, hq8⟩ := hq7
                      rw [stepPlain (by decide)]
                      have ha3 : ((((((a ++ serStr kv.1) ++ [':']) ++
                          [' ']) ++ ser kv.2) ++ [',']) ++ [' ']) =
                          openText C0 ++ '\x7b' ::
                            doneTextO (done ++ [kv]) := by
                        subst ha
                        simp [doneTextO_snoc, List.append_assoc]
                      exact ihM (kv2 :: t2) (done ++ [kv]) C0 ls2
                        ((((((a ++ serStr kv.1) ++ [':']) ++ [' ']) ++
                          ser kv.2) ++ [',']) ++ [' ']) q8 r hms.2
                        (by simp)
                        (by simp only [sizeMembers] at hs ⊢; omega)
                        (by simp [wfMembers_append, wfMembers, hdone,
                          hms.1.1, hms.1.2]) hctx0 hls2 ha3 hq8 hr

theorem goodRes_conclude {res : Option (List Char)} (h : GoodRes res) :
    res = Option.none ∨ ∃ v', wfJ v' = true ∧ res = some (ser v') ∧
      jsonParse (ser v') = some v' := by
  rcases h with h | ⟨v', hw, he⟩
  · exact Or.inl h
  · exact Or.inr ⟨v', hw, he, jsonParse_ser v' hw⟩

/-- C7 (amended): on any prefix of the serialization of a well-formed
object or array document, `_repair_truncated_json` returns either nothing
or the serialization of a well-formed document, which `json.loads`
parses. -/
theorem repair_truncated_json_good (doc : J) (p r : List Char)
    (hc : isContainer doc = true) (hwf : wfJ doc = true)
    (hpr : p ++ r = ser doc) :
    repair_truncated_json p = Option.none ∨
    ∃ v', wfJ v' = true ∧ repair_truncated_json p = some (ser v') ∧
      jsonParse (ser v') = some v' := by
  cases doc with
  | null => simp [isContainer] at hc
  | jtrue => simp [isContainer] at hc
  | jfalse => simp [isContainer] at hc
  | num neg ds => simp [isContainer] at hc
  | str s => simp [isContainer] at hc
  | arr xs =>
    simp only [wfJ] at hwf
    cases p with
    | nil => exact Or.inl rfl
    | cons d p2 =>
      have hser : ser (J.arr xs) = '[' :: (serElems xs ++ [']']) := by
        simp [ser]
      rw [hser] at hpr
      simp only [List.cons_append, List.cons.injEq] at hpr
      obtain ⟨rfl, hp2⟩ := hpr
      have hrt : repair_truncated_json ('[' :: p2) =
          repairLoop [] Option.none false Option.none [] ('[' :: p2) :=
        rfl
      have haeq : (['['] : List Char) =
          openText (Frame.arrF [] :: []) := by
        simp [openText, frameOpen, doneTextA]
      cases xs with
      | nil =>
        have hp2' : p2 ++ r = [']'] := by simpa [serElems] using hp2
        cases p2 with
        | nil =>
          refine Or.inl ?_
          rw [hrt, stepOpen (Or.inr rfl), repairLoop_nil]
          rfl
        | cons e p3 =>
          simp only [List.cons_append, List.cons.injEq] at hp2'
          obtain ⟨rfl, hp3⟩ := hp2'
          rcases List.append_eq_nil.mp hp3 with ⟨rfl, _⟩
          refine Or.inr ⟨J.arr [], by simp [wfJ, wfElems], ?_, ?_⟩
          · rw [hrt, stepOpen (Or.inr rfl), stepCloseLastBracket]
            decide
          · exact jsonParse_ser (J.arr []) (by simp [wfJ, wfElems])
      | cons x t =>
        by_cases hre : r = []
        · subst hre
          rw [List.append_nil] at hp2
          obtain ⟨ls2, hls2, hE⟩ :=
            (scan_complete (sizeElems (x :: t))).2.1 (x :: t) [] []
              Option.none ['['] [']'] hwf (by simp) le_rfl
              (by simp [wfElems]) (by simp [wfCtx]) trivial haeq
          simp only [stackOf, List.map_nil] at hE
          refine Or.inr ⟨J.arr (x :: t), by simp [wfJ, hwf], ?_, ?_⟩
          · rw [hrt, hp2, stepOpen (Or.inr rfl), List.nil_append, hE,
              stepCloseLastBracket]
            simp [ser]
          · exact jsonParse_ser (J.arr (x :: t)) (by simp [wfJ, hwf])
        · have hfull : p2 = serElems (x :: t) →
              (repair_truncated_json ('[' :: p2) = Option.none ∨
              ∃ v', wfJ v' = true ∧
                repair_truncated_json ('[' :: p2) = some (ser v') ∧
                jsonParse (ser v') = some v') := by
            intro hp2e
            subst hp2e
            obtain ⟨ls2, hls2, hE⟩ :=
              (scan_complete (sizeElems (x :: t))).2.1 (x :: t) [] []
                Option.none ['['] [] hwf (by simp) le_rfl
                (by simp [wfElems]) (by simp [wfCtx]) trivial haeq
            simp only [stackOf, List.map_nil] at hE
            rw [List.append_nil] at hE
            rw [hrt, stepOpen (Or.inr rfl), List.nil_append, hE,
              repairLoop_nil]
            exact goodRes_conclude (goodRes_eof hls2)
          rcases splitPre (serElems (x :: t)) p2 r [']'] hp2 with
            ⟨r1, hr1⟩ | ⟨q3, hq3, hq3b⟩
          · by_cases hr1e : r1 = []
            · subst hr1e
              rw [List.append_nil] at hr1
              exact hfull hr1
            · have hEp := (scan_trunc (sizeElems (x :: t))).2.1 (x :: t)
                [] [] Option.none ['['] p2 r1 hwf (by simp) le_rfl
                (by simp [wfElems]) (by simp [wfCtx]) trivial haeq hr1
                hr1e
              simp only [stackOf, List.map_nil] at hEp
              rw [hrt, stepOpen (Or.inr rfl), List.nil_append]
              exact goodRes_conclude hEp
          · cases q3 with
            | nil =>
              rw [List.append_nil] at hq3
              exact hfull hq3
            | cons c q4 =>
              exfalso
              simp only [List.cons_append, List.cons.injEq] at hq3b
              rcases List.append_eq_nil.mp hq3b.2 with ⟨_, h2⟩
              exact hre h2
  | obj ms =>
    simp only [wfJ] at hwf
    cases p with
    | nil => exact Or.inl rfl
    | cons d p2 =>
      have hser : ser (J.obj ms) =
          '\x7b' :: (serMembers ms ++ ['\x7d']) := by
        simp [ser]
      rw [hser] at hpr
      simp only [List.cons_append, List.cons.injEq] at hpr
      obtain ⟨rfl, hp2⟩ := hpr
      have hrt : repair_truncated_json ('\x7b' :: p2) =
          repairLoop [] Option.none false Option.none []
            ('\x7b' :: p2) := rfl
      have haeq : (['\x7b'] : List Char) =
          openText ([] : List Frame) ++ '\x7b' :: doneTextO [] := by
        simp [openText, doneTextO]
      cases ms with
      | nil =>
        have hp2' : p2 ++ r = ['\x7d'] := by simpa [serMembers] using hp2
        cases p2 with
        | nil =>
          refine Or.inl ?_
          rw [hrt, stepOpen (Or.inl rfl), repairLoop_nil]
          rfl
        | cons e p3 =>
          simp only [List.cons_append, List.cons.injEq] at hp2'
          obtain ⟨rfl, hp3⟩ := hp2'
          rcases List.append_eq_nil.mp hp3 with ⟨rfl, _⟩
          refine Or.inr ⟨J.obj [], by simp [wfJ, wfMembers], ?_, ?_⟩
          · rw [hrt, stepOpen (Or.inl rfl), stepCloseLastBrace]
            decide
          · exact jsonParse_ser (J.obj []) (by simp [wfJ, wfMembers])
      | cons kv t =>
        by_cases hre : r = []
        · subst hre
          rw [List.append_nil] at hp2
          obtain ⟨ls2, hls2, hM⟩ :=
            (scan_complete (sizeMembers (kv :: t))).2.2 (kv :: t) [] []
              Option.none ['\x7b'] ['\x7d'] hwf (by simp) le_rfl
              (by simp [wfMembers]) (by simp [wfCtx]) trivial haeq
          simp only [stackOf, List.map_nil] at hM
          refine Or.inr ⟨J.obj (kv :: t), by simp [wfJ, hwf], ?_, ?_⟩
          · rw [hrt, hp2, stepOpen (Or.inl rfl), List.nil_append, hM,
              stepCloseLastBrace]
            simp [ser]
          · exact jsonParse_ser (J.obj (kv :: t)) (by simp [wfJ, hwf])
        · have hfull : p2 = serMembers (kv :: t) →
              (repair_truncated_json ('\x7b' :: p2) = Option.none ∨
              ∃ v', wfJ v' = true ∧
                repair_truncated_json ('\x7b' :: p2) = some (ser v') ∧
                jsonParse (ser v') = some v') := by
            intro hp2e
            subst hp2e
            obtain ⟨ls2, hls2, hM⟩ :=
              (scan_complete (sizeMembers (kv :: t))).2.2 (kv :: t) [] []
                Option.none ['\x7b'] [] hwf (by simp) le_rfl
                (by simp [wfMembers]) (by simp [wfCtx]) trivial haeq
            simp only [stackOf, List.map_nil] at hM
            rw [List.append_nil] at hM
            rw [hrt, stepOpen (Or.inl rfl), List.nil_append, hM,
              repairLoop_nil]
            exact goodRes_conclude (goodRes_eof hls2)
          rcases splitPre (serMembers (kv :: t)) p2 r ['\x7d'] hp2 with
            ⟨r1, hr1⟩ | ⟨q3, hq3, hq3b⟩
          · by_cases hr1e : r1 = []
            · subst hr1e
              rw [List.append_nil] at hr1
              exact hfull hr1
            · have hMp := (scan_trunc (sizeMembers (kv :: t))).2.2
                (kv :: t) [] [] Option.none ['\x7b'] p2 r1 hwf (by simp)
                le_rfl (by simp [wfMembers]) (by simp [wfCtx]) trivial
                haeq hr1 hr1e
              simp only [stackOf, List.map_nil] at hMp
              rw [hrt, stepOpen (Or.inl rfl), List.nil_append]
              exact goodRes_conclude hMp
          · cases q3 with
            | nil =>
              rw [List.append_nil] at hq3
              exact hfull hq3
            | cons c q4 =>
              exfalso
              simp only [List.cons_append, List.cons.injEq] at hq3b
              rcases List.append_eq_nil.mp hq3b.2 with ⟨_, h2⟩
              exact hre h2

/-- Witness: the theorem applied to the truncated serialization of the
object `\x7b"a": 1\x7d` (its closing brace cut off). -/
theorem repair_truncated_json_good_witness :
    repair_truncated_json ['\x7b', '"', 'a', '"', ':', ' ', '1'] =
      Option.none ∨
    ∃ v', wfJ v' = true ∧
      repair_truncated_json ['\x7b', '"', 'a', '"', ':', ' ', '1'] =
        some (ser v') ∧
      jsonParse (ser v') = some v' :=
  repair_truncated_json_good (J.obj [(['a'], J.num false ['1'])])
    ['\x7b', '"', 'a', '"', ':', ' ', '1'] ['\x7d'] (by decide) (by decide)
    (by decide)

/-- Counterexample to the original C7: the string document `"\x7b\x7ba\x7d b"`
is valid JSON, but on the prefix that cuts it after the space the scanner
mistakes the braces inside the string literal for structure and returns
`\x7b\x7ba\x7d\x7d`, which does not parse. -/
theorem repair_truncated_json_unparseable :
    wfJ (J.str ['\x7b', '\x7b', 'a', '\x7d', ' ', 'b']) = true ∧
    ['"', '\x7b', '\x7b', 'a', '\x7d', ' '] ++ ['b', '"'] =
      ser (J.str ['\x7b', '\x7b', 'a', '\x7d', ' ', 'b']) ∧
    repair_truncated_json ['"', '\x7b', '\x7b', 'a', '\x7d', ' '] =
      some ['\x7b', '\x7b', 'a', '\x7d', '\x7d'] ∧
    (jsonParse ['\x7b', '\x7b', 'a', '\x7d', '\x7d']).isSome = false := by
  refine ⟨by decide, by decide, by decide, by decide⟩

end HelpUDoc
